import Mathlib

/-!
# Verification of the orredis object-mapping layer

A shallow embedding of the orredis repository (a Python/Rust object mapper
projecting typed, nested record models onto a flat string key-value store)
together with proofs and refutations of the frozen specification claims.

Embedded directly from the Python sources under `src/orredis/`:
* the composite key codec (`Model.__get_table_name`, `Model.__get_primary_key`
  in `src/orredis/model.py`),
* collection registration (`Store.register_model` in `src/orredis/store.py`,
  `Store.models` class-level registry, `Store.model` lookup),
* the argument-shape dispatch and error behaviour of `insert`
  (`BaseModel.insert` in `src/orredis/abstract.py` and `Model.insert` in
  `src/orredis/model.py`),
* the life-span resolution chain (`BaseModel.insert` / `BaseModel.update`).

The storage engine itself (`orredis.orredis`, the compiled extension with the
serializer, nested resolver and CRUD operations) is not part of the Python
sources, so those parts are modelled from the specification, as marked on each
such definition.
-/

/-- A Python value as far as the embedded code inspects one: the sources only
ever distinguish strings, a few other concrete kinds, and `None`. -/
inductive PyVal where
  | str (s : String)
  | int (n : Int)
  | none
  deriving DecidableEq, Repr

/-- Python `str(v)` on the values of `PyVal` (`None` prints as `"None"`). -/
def pyStr : PyVal → String
  | .str s => s
  | .int n => toString n
  | .none => "None"

/-- `v` is a Python `str` (the `isinstance(v, str)` test). -/
def PyVal.isStr : PyVal → Bool
  | .str _ => true
  | _ => false

/-! ## Key codec — from `src/orredis/model.py`

```python
@classmethod
def __get_table_name(cls):
    return cls.__name__.lower()

@classmethod
def __get_primary_key(cls, primary_key_value: Any):
    table_name = cls.__name__.lower()
    return f"{table_name}_%&_{primary_key_value}"
```
-/

/-- The separator of the composite key, as a character list. -/
def sepChars : List Char := ['_', '%', '&', '_']

/-- Python `str.lower()`, character by character.  (Defined over the character
list rather than through `String.mapAux` so that concrete keys evaluate by
kernel reduction.) -/
def strLower (s : String) : String := ⟨s.data.map Char.toLower⟩

/-- `Model.__get_table_name`: the collection name is the lower-cased class
name. -/
def getTableName (className : String) : String := strLower className

/-- `Model.__get_primary_key` applied to a primary-key value that is already a
string: `f"{table_name}_%&_{primary_key_value}"`. -/
def getPrimaryKey (className : String) (primaryKeyValue : String) : String :=
  getTableName className ++ "_%&_" ++ primaryKeyValue

/-- `Model.__get_primary_key` on an arbitrary Python value.  The method body is
a single f-string, which never raises: the result is always an ordinary key,
so the embedding is `Except`-valued only to make "the operation fails" a
statable property. -/
def getPrimaryKeyVal (className : String) (primaryKeyValue : PyVal) :
    Except String String :=
  Except.ok (getTableName className ++ "_%&_" ++ pyStr primaryKeyValue)

/-- `pat` occurs as a contiguous subsequence of `l`. -/
def containsSeq (pat : List Char) : List Char → Bool
  | [] => pat.isEmpty
  | c :: cs => pat.isPrefixOf (c :: cs) || containsSeq pat cs

/-- The string `s` contains the composite-key separator `"_%&_"`. -/
def hasSeparator (s : String) : Bool := containsSeq sepChars s.data

/-- The character `c` may appear in a Python identifier (hence in a class
name): ASCII letter, digit or underscore. -/
def isIdentChar (c : Char) : Bool :=
  ('a' ≤ c && c ≤ 'z') || ('A' ≤ c && c ≤ 'Z') || ('0' ≤ c && c ≤ '9') || c = '_'

/-- Every character of `s` may appear in a Python identifier. -/
def isIdentStr (s : String) : Bool := s.data.all isIdentChar

example : getPrimaryKey "Book" "Oliver Twist" = "book_%&_Oliver Twist" := by decide
example : hasSeparator "book_%&_x" = true := by rfl
example : hasSeparator "book_%&x" = false := by rfl
example : isIdentStr "Author" = true := by rfl

/-! ## Digit codecs

The storage engine stores every field as a string.  The engine itself is the
compiled `orredis.orredis` extension and is not part of the Python sources, so
its serializer is modelled from the specification (§4.3): each scalar kind is
written as a string whose deserialization coercion is its exact inverse.  The
codecs below are that model. -/

/-- The decimal digit character for `n < 10`. -/
def digitChar : Nat → Char
  | 0 => '0' | 1 => '1' | 2 => '2' | 3 => '3' | 4 => '4'
  | 5 => '5' | 6 => '6' | 7 => '7' | 8 => '8' | 9 => '9'
  | _ => '*'

/-- The numeric value of a digit character. -/
def digitVal (c : Char) : Nat := c.toNat - 48

/-- Decimal digits of `n`, most significant first; `fuel` bounds recursion
depth structurally so concrete values reduce in the kernel. -/
def toDigitsAux : Nat → Nat → List Char
  | 0, _ => []
  | fuel + 1, n =>
    if n < 10 then [digitChar n] else toDigitsAux fuel (n / 10) ++ [digitChar (n % 10)]

/-- Decimal digits of `n`, most significant first. -/
def natDigits (n : Nat) : List Char := toDigitsAux (n + 1) n

/-- Value of a digit string, most significant first. -/
def decDigits (ds : List Char) : Nat := ds.foldl (fun a c => 10 * a + digitVal c) 0

theorem digitVal_digitChar {n : Nat} (h : n < 10) : digitVal (digitChar n) = n := by
  interval_cases n <;> rfl

theorem digitChar_isDigit {n : Nat} (h : n < 10) : (digitChar n).isDigit = true := by
  interval_cases n <;> rfl

theorem decDigits_append_one (l : List Char) (c : Char) :
    decDigits (l ++ [c]) = 10 * decDigits l + digitVal c := by
  simp [decDigits]

theorem decDigits_toDigitsAux :
    ∀ fuel n, n < 10 ^ fuel → decDigits (toDigitsAux fuel n) = n := by
  intro fuel
  induction fuel with
  | zero =>
    intro n h
    simp [Nat.pow_zero, Nat.lt_one_iff] at h
    simp [h, toDigitsAux, decDigits]
  | succ fuel ih =>
    intro n h
    by_cases h10 : n < 10
    · simp [toDigitsAux, h10, decDigits, digitVal_digitChar h10]
    · have hdiv : n / 10 < 10 ^ fuel := by
        rw [Nat.div_lt_iff_lt_mul (by norm_num : 0 < 10)]
        calc n < 10 ^ (fuel + 1) := h
        _ = 10 ^ fuel * 10 := by rw [Nat.pow_succ]
      simp only [toDigitsAux, h10, if_false]
      rw [decDigits_append_one, ih _ hdiv, digitVal_digitChar (Nat.mod_lt n (by norm_num))]
      omega

theorem lt_ten_pow_succ (n : Nat) : n < 10 ^ (n + 1) :=
  lt_of_lt_of_le (Nat.lt_pow_self (by norm_num) n)
    (Nat.pow_le_pow_right (by norm_num) (Nat.le_succ n))

theorem decDigits_natDigits (n : Nat) : decDigits (natDigits n) = n :=
  decDigits_toDigitsAux _ _ (lt_ten_pow_succ n)

theorem toDigitsAux_all_digits :
    ∀ fuel n c, c ∈ toDigitsAux fuel n → c.isDigit = true := by
  intro fuel
  induction fuel with
  | zero => intro n c h; simp [toDigitsAux] at h
  | succ fuel ih =>
    intro n c h
    by_cases h10 : n < 10
    · simp [toDigitsAux, h10] at h
      simp [h, digitChar_isDigit h10]
    · simp only [toDigitsAux, h10, if_false, List.mem_append, List.mem_singleton] at h
      rcases h with h | h
      · exact ih _ _ h
      · simp [h, digitChar_isDigit (Nat.mod_lt n (by norm_num))]

theorem natDigits_all_digits (n : Nat) : (natDigits n).all Char.isDigit = true := by
  rw [List.all_eq_true]
  intro c hc
  exact toDigitsAux_all_digits _ _ _ hc

theorem natDigits_ne_nil (n : Nat) : natDigits n ≠ [] := by
  unfold natDigits toDigitsAux
  by_cases h10 : n < 10 <;> simp [h10]

/-- A digit character is not one of the structural delimiter characters the
codecs use. -/
theorem isDigit_ne_delims {c : Char} (h : c.isDigit = true) :
    c ≠ ':' ∧ c ≠ '-' ∧ c ≠ 'e' ∧ c ≠ '+' := by
  refine ⟨?_, ?_, ?_, ?_⟩ <;> intro he <;> subst he <;> simp [Char.isDigit] at h

/-! ## Parsing primitives -/

/-- Read a non-empty run of leading digits as a number, returning the rest. -/
def parseNat (cs : List Char) : Option (Nat × List Char) :=
  let ds := cs.takeWhile Char.isDigit
  if ds.isEmpty then Option.none else some (decDigits ds, cs.dropWhile Char.isDigit)

/-- Expect the literal character `c` and consume it. -/
def expectChar (c : Char) : List Char → Option (List Char)
  | [] => Option.none
  | x :: xs => if x = c then some xs else Option.none

theorem takeWhile_append_not {p : Char → Bool} :
    ∀ (l : List Char) (c : Char) (r : List Char), (∀ x ∈ l, p x = true) → p c = false →
      (l ++ c :: r).takeWhile p = l ∧ (l ++ c :: r).dropWhile p = c :: r := by
  intro l
  induction l with
  | nil =>
    intro c r _ hc
    simp [List.takeWhile, List.dropWhile, hc]
  | cons x xs ih =>
    intro c r hl hc
    have hx : p x = true := hl x (List.mem_cons_self x xs)
    have := ih c r (fun y hy => hl y (List.mem_cons_of_mem x hy)) hc
    simp [List.takeWhile, List.dropWhile, hx, this.1, this.2]

theorem parseNat_natDigits (n : Nat) (c : Char) (r : List Char)
    (hc : c.isDigit = false) :
    parseNat (natDigits n ++ c :: r) = some (n, c :: r) := by
  have hall : ∀ x ∈ natDigits n, x.isDigit = true := by
    have := natDigits_all_digits n
    rw [List.all_eq_true] at this
    exact this
  have h := takeWhile_append_not (natDigits n) c r hall hc
  simp only [parseNat, h.1, h.2]
  rw [if_neg (by simp [List.isEmpty_iff, natDigits_ne_nil n])]
  rw [decDigits_natDigits]

theorem expectChar_cons (c : Char) (r : List Char) : expectChar c (c :: r) = some r := by
  simp [expectChar]

/-! ## Integer codec -/

/-- Serialized form of an integer (Python `str(int)`): optional minus sign and
decimal digits. -/
def intChars (n : Int) : List Char :=
  if n < 0 then '-' :: natDigits n.natAbs else natDigits n.natAbs

/-- Decode a whole character list as a natural number. -/
def decNatAll (cs : List Char) : Option Nat :=
  if cs.isEmpty || !cs.all Char.isDigit then Option.none else some (decDigits cs)

/-- Decode a whole character list as an integer. -/
def decIntAll : List Char → Option Int
  | [] => Option.none
  | c :: rest =>
    if c = '-' then
      match decNatAll rest with
      | some m => some (-(m : Int))
      | Option.none => Option.none
    else
      match decNatAll (c :: rest) with
      | some m => some ((m : Int))
      | Option.none => Option.none

theorem decNatAll_natDigits (n : Nat) : decNatAll (natDigits n) = some n := by
  simp only [decNatAll, natDigits_all_digits n]
  rw [if_neg (by simp [List.isEmpty_iff, natDigits_ne_nil n])]
  rw [decDigits_natDigits]

theorem natDigits_head_digit (n : Nat) :
    ∃ c t, natDigits n = c :: t ∧ c.isDigit = true := by
  rcases h : natDigits n with _ | ⟨c, t⟩
  · exact absurd h (natDigits_ne_nil n)
  · refine ⟨c, t, rfl, ?_⟩
    have := natDigits_all_digits n
    rw [List.all_eq_true] at this
    exact this c (by rw [h]; exact List.mem_cons_self c t)

theorem decIntAll_intChars (n : Int) : decIntAll (intChars n) = some n := by
  obtain ⟨c, t, hct, hdig⟩ := natDigits_head_digit n.natAbs
  by_cases hneg : n < 0
  · rw [intChars, if_pos hneg]
    have h1 : decIntAll ('-' :: natDigits n.natAbs) =
        match decNatAll (natDigits n.natAbs) with
        | some m => some (-(m : Int))
        | Option.none => Option.none := by
      simp [decIntAll]
    rw [h1, decNatAll_natDigits]
    show some (-(n.natAbs : Int)) = some n
    have : -((n.natAbs : Nat) : Int) = n := by omega
    rw [this]
  · have hc : c ≠ '-' := (isDigit_ne_delims hdig).2.1
    rw [intChars, if_neg hneg, hct]
    have h1 : decIntAll (c :: t) =
        match decNatAll (c :: t) with
        | some m => some ((m : Int))
        | Option.none => Option.none := by
      simp [decIntAll, hc]
    rw [h1, ← hct, decNatAll_natDigits]
    show some ((n.natAbs : Int)) = some n
    have : ((n.natAbs : Nat) : Int) = n := by omega
    rw [this]

/-! ## Scalar values (the supported field kinds of §3/§4.3)

Modelled from the spec: the supported scalar kinds are int, float, bool,
string, date and datetime.  A float is modelled by its sign, mantissa and
exponent (the components of a binary64 value; Python's `repr(float)` is
likewise round-trip exact).  A datetime is modelled as an absolute instant
together with the UTC offset it is expressed in; storage normalizes the
offset away (§3 storage-equality), which is why two instants that are equal
in absolute time but expressed in different offsets must compare equal. -/

structure DateRep where
  year : Nat
  month : Nat
  day : Nat
  deriving DecidableEq, Repr

structure DateTimeRep where
  instant : Int
  offset : Int
  deriving DecidableEq, Repr

structure FloatRep where
  sign : Bool
  mantissa : Nat
  exp : Int
  deriving DecidableEq, Repr

/-- A scalar value of a record field. -/
inductive Atom where
  | int (n : Int)
  | float (f : FloatRep)
  | bool (b : Bool)
  | str (s : String)
  | date (d : DateRep)
  | datetime (dt : DateTimeRep)
  deriving DecidableEq, Repr

/-- The declared scalar kind of a field (Field Type Registry, §4.1). -/
inductive AtomKind where
  | int | float | bool | str | date | datetime
  deriving DecidableEq, Repr

/-- The kind an atom belongs to. -/
def atomKindOf : Atom → AtomKind
  | .int _ => .int
  | .float _ => .float
  | .bool _ => .bool
  | .str _ => .str
  | .date _ => .date
  | .datetime _ => .datetime

/-- Modelled from the spec: serialize one scalar to its stored string form
(§4.3 — "for all other scalars, stringify directly"; datetimes are stored as
the normalized absolute instant). -/
def encAtom : Atom → List Char
  | .int n => intChars n
  | .float f => (if f.sign then '-' else '+') :: natDigits f.mantissa ++ 'e' :: intChars f.exp
  | .bool b => if b then "True".data else "False".data
  | .str s => s.data
  | .date d => natDigits d.year ++ '-' :: natDigits d.month ++ '-' :: natDigits d.day
  | .datetime dt => intChars dt.instant

/-- Modelled from the spec: the per-field deserialization coercion (§4.3),
directed by the field's declared kind, consuming the whole stored string. -/
def decAtom (k : AtomKind) (cs : List Char) : Option Atom :=
  match k with
  | .int => (decIntAll cs).map Atom.int
  | .float =>
    match cs with
    | [] => Option.none
    | s :: rest =>
      if s = '+' then decFloatBody false rest
      else if s = '-' then decFloatBody true rest
      else Option.none
  | .bool =>
    if cs = "True".data then some (Atom.bool true)
    else if cs = "False".data then some (Atom.bool false)
    else Option.none
  | .str => some (Atom.str (String.mk cs))
  | .date =>
    (parseNat cs).bind fun p1 =>
      (expectChar '-' p1.2).bind fun r2 =>
        (parseNat r2).bind fun p2 =>
          (expectChar '-' p2.2).bind fun r4 =>
            (decNatAll r4).map fun d => Atom.date ⟨p1.1, p2.1, d⟩
  | .datetime => (decIntAll cs).map (fun i => Atom.datetime ⟨i, 0⟩)
where
  /-- Mantissa-and-exponent tail of the float coercion. -/
  decFloatBody (sg : Bool) (rest : List Char) : Option Atom :=
    (parseNat rest).bind fun p =>
      (expectChar 'e' p.2).bind fun r2 =>
        (decIntAll r2).map fun e => Atom.float ⟨sg, p.1, e⟩

/-- Storage normalization of a scalar: a datetime loses its original offset
and is re-expressed at the canonical offset (UTC). -/
def normalizeAtom : Atom → Atom
  | .datetime dt => .datetime ⟨dt.instant, 0⟩
  | a => a

/-- Storage-equality on scalars (§3): a timezone-aware temporal value is
compared by its absolute instant; every other scalar is compared directly. -/
def storageEqAtom : Atom → Atom → Bool
  | .datetime dt1, .datetime dt2 => dt1.instant = dt2.instant
  | a, b => a = b

theorem storageEqAtom_normalize (a : Atom) : storageEqAtom a (normalizeAtom a) = true := by
  cases a <;> simp [storageEqAtom, normalizeAtom]

theorem decAtom_encAtom (a : Atom) :
    decAtom (atomKindOf a) (encAtom a) = some (normalizeAtom a) := by
  cases a with
  | int n => simp [atomKindOf, encAtom, decAtom, decIntAll_intChars, normalizeAtom]
  | float f =>
    obtain ⟨sg, m, e⟩ := f
    have hdig : ('e').isDigit = false := by decide
    have hbody : decAtom.decFloatBody sg (natDigits m ++ 'e' :: intChars e) =
        some (Atom.float ⟨sg, m, e⟩) := by
      rw [decAtom.decFloatBody, parseNat_natDigits m 'e' (intChars e) hdig,
        Option.some_bind, expectChar_cons, Option.some_bind, decIntAll_intChars]
      rfl
    cases sg
    · show decAtom AtomKind.float ('+' :: (natDigits m ++ 'e' :: intChars e)) = _
      rw [decAtom, if_pos rfl, hbody]
      rfl
    · show decAtom AtomKind.float ('-' :: (natDigits m ++ 'e' :: intChars e)) = _
      rw [decAtom, if_neg (by decide), if_pos rfl, hbody]
      rfl
  | bool b => cases b <;> simp [atomKindOf, encAtom, decAtom, normalizeAtom]
  | str s => simp [atomKindOf, encAtom, decAtom, normalizeAtom]
  | date d =>
    obtain ⟨y, m, dd⟩ := d
    have hdig : ('-').isDigit = false := by decide
    show decAtom AtomKind.date (natDigits y ++ '-' :: natDigits m ++ '-' :: natDigits dd) = _
    rw [show natDigits y ++ '-' :: natDigits m ++ '-' :: natDigits dd =
        natDigits y ++ '-' :: (natDigits m ++ '-' :: natDigits dd) from by simp]
    rw [decAtom, parseNat_natDigits y '-' _ hdig, Option.some_bind, expectChar_cons,
      Option.some_bind, parseNat_natDigits m '-' _ hdig, Option.some_bind, expectChar_cons,
      Option.some_bind, decNatAll_natDigits]
    rfl
  | datetime dt =>
    simp [atomKindOf, encAtom, decAtom, decIntAll_intChars, normalizeAtom]

/-! ## List codec

Modelled from the spec (§4.3): a tuple/list of primitives is serialized as a
string whose deserialization coercion is its exact inverse.  The model uses a
length-prefixed chunk per element, so arbitrary element content (including
separators) round-trips. -/

/-- Serialize a list of scalars: each element as `<len>:<chunk>`. -/
def encAtomList : List Atom → List Char
  | [] => []
  | a :: rest => natDigits (encAtom a).length ++ ':' :: (encAtom a ++ encAtomList rest)

/-- Deserialize a list of scalars of kind `k`; `fuel` bounds the number of
elements and keeps the recursion structural. -/
def decAtomListAux (k : AtomKind) : Nat → List Char → Option (List Atom)
  | 0, cs => if cs.isEmpty then some [] else Option.none
  | fuel + 1, cs =>
    if cs.isEmpty then some []
    else
      (parseNat cs).bind fun p =>
        (expectChar ':' p.2).bind fun r =>
          if p.1 ≤ r.length then
            (decAtom k (r.take p.1)).bind fun a =>
              (decAtomListAux k fuel (r.drop p.1)).map fun as => a :: as
          else Option.none

/-- Deserialize a whole stored string as a list of scalars of kind `k`. -/
def decAtomListAll (k : AtomKind) (cs : List Char) : Option (List Atom) :=
  decAtomListAux k cs.length cs

theorem length_le_encAtomList (xs : List Atom) : xs.length ≤ (encAtomList xs).length := by
  induction xs with
  | nil => simp [encAtomList]
  | cons a rest ih =>
    simp only [encAtomList, List.length_cons, List.length_append]
    have h1 : 1 ≤ (natDigits (encAtom a).length).length := by
      rcases natDigits_head_digit (encAtom a).length with ⟨c, t, hct, _⟩
      simp [hct]
    omega

theorem decAtomListAux_encAtomList (k : AtomKind) :
    ∀ (xs : List Atom) (fuel : Nat), (∀ a ∈ xs, atomKindOf a = k) →
      xs.length ≤ fuel →
      decAtomListAux k fuel (encAtomList xs) = some (xs.map normalizeAtom) := by
  intro xs
  induction xs with
  | nil =>
    intro fuel _ _
    cases fuel <;> simp [encAtomList, decAtomListAux]
  | cons a rest ih =>
    intro fuel hk hlen
    cases fuel with
    | zero => simp at hlen
    | succ fuel =>
      have hne : encAtomList (a :: rest) ≠ [] := by
        simp only [encAtomList]
        rcases natDigits_head_digit (encAtom a).length with ⟨c, t, hct, _⟩
        simp [hct]
      rw [decAtomListAux, if_neg (by simp [List.isEmpty_iff, hne])]
      rw [show encAtomList (a :: rest) =
          natDigits (encAtom a).length ++ ':' :: (encAtom a ++ encAtomList rest) from rfl]
      rw [parseNat_natDigits _ ':' _ (by decide), Option.some_bind, expectChar_cons,
        Option.some_bind]
      rw [if_pos (by simp)]
      rw [show (encAtom a ++ encAtomList rest).take (encAtom a).length = encAtom a from
        List.take_left _ _]
      rw [show (encAtom a ++ encAtomList rest).drop (encAtom a).length = encAtomList rest from
        List.drop_left _ _]
      rw [show decAtom k (encAtom a) = some (normalizeAtom a) from by
        rw [← hk a (List.mem_cons_self a rest)]; exact decAtom_encAtom a]
      rw [Option.some_bind]
      rw [ih fuel (fun x hx => hk x (List.mem_cons_of_mem a hx)) (by simpa using hlen)]
      rfl

theorem decAtomListAll_encAtomList (k : AtomKind) (xs : List Atom)
    (hk : ∀ a ∈ xs, atomKindOf a = k) :
    decAtomListAll k (encAtomList xs) = some (xs.map normalizeAtom) :=
  decAtomListAux_encAtomList k xs _ hk (length_le_encAtomList xs)

/-! ## Flat field values and flat (non-nested) records

Modelled from the spec: §4.3's flat mapping of field-name→string, §4.1's
field-type descriptors for a model with no nested-model fields. -/

/-- Declared type of a flat (non-nested) field: a scalar kind or a
tuple/list of primitives. -/
inductive FlatFieldType where
  | atomK (k : AtomKind)
  | listK (k : AtomKind)
  deriving DecidableEq, Repr

/-- A flat field value. -/
inductive FlatValue where
  | atom (a : Atom)
  | list (xs : List Atom)
  deriving DecidableEq, Repr

/-- The value `v` inhabits the declared flat type `t`. -/
def flatTypeMatches : FlatFieldType → FlatValue → Bool
  | .atomK k, .atom a => atomKindOf a = k
  | .listK k, .list xs => xs.all (fun a => atomKindOf a = k)
  | _, _ => false

/-- Serialize one flat field value to its stored string (as characters). -/
def encFlatValue : FlatValue → List Char
  | .atom a => encAtom a
  | .list xs => encAtomList xs

/-- Coerce one stored string back to a flat field value of declared type `t`. -/
def decFlatValue : FlatFieldType → List Char → Option FlatValue
  | .atomK k, cs => (decAtom k cs).map FlatValue.atom
  | .listK k, cs => (decAtomListAll k cs).map FlatValue.list

/-- Storage normalization of a flat value (datetimes re-expressed at UTC). -/
def normalizeFlatValue : FlatValue → FlatValue
  | .atom a => .atom (normalizeAtom a)
  | .list xs => .list (xs.map normalizeAtom)

/-- Pointwise storage-equality of scalar lists. -/
def storageEqAtomList : List Atom → List Atom → Bool
  | [], [] => true
  | a :: as, b :: bs => storageEqAtom a b && storageEqAtomList as bs
  | _, _ => false

/-- Storage-equality of flat values (§3). -/
def storageEqFlatValue : FlatValue → FlatValue → Bool
  | .atom a, .atom b => storageEqAtom a b
  | .list xs, .list ys => storageEqAtomList xs ys
  | _, _ => false

theorem storageEqAtomList_normalize (xs : List Atom) :
    storageEqAtomList xs (xs.map normalizeAtom) = true := by
  induction xs with
  | nil => rfl
  | cons a as ih => simp [storageEqAtomList, storageEqAtom_normalize, ih]

theorem storageEqFlatValue_normalize (v : FlatValue) :
    storageEqFlatValue v (normalizeFlatValue v) = true := by
  cases v with
  | atom a => simp [storageEqFlatValue, normalizeFlatValue, storageEqAtom_normalize]
  | list xs => simp [storageEqFlatValue, normalizeFlatValue, storageEqAtomList_normalize]

theorem decFlatValue_encFlatValue (t : FlatFieldType) (v : FlatValue)
    (h : flatTypeMatches t v = true) :
    decFlatValue t (encFlatValue v) = some (normalizeFlatValue v) := by
  cases t with
  | atomK k =>
    cases v with
    | atom a =>
      simp only [flatTypeMatches, decide_eq_true_eq] at h
      simp [decFlatValue, encFlatValue, ← h, decAtom_encAtom, normalizeFlatValue]
    | list xs => simp [flatTypeMatches] at h
  | listK k =>
    cases v with
    | atom a => simp [flatTypeMatches] at h
    | list xs =>
      simp only [flatTypeMatches, List.all_eq_true, decide_eq_true_eq] at h
      simp [decFlatValue, encFlatValue, decAtomListAll_encAtomList k xs h, normalizeFlatValue]

/-! ## Flat records (sub-records of the single nesting level) -/

/-- Assoc-list lookup by field name (first match), mirroring a Python dict
read. -/
def lookupS {β : Type} (n : String) : List (String × β) → Option β
  | [] => Option.none
  | (m, v) :: rest => if m = n then some v else lookupS n rest

/-- A flat record instance: ordered field-name→flat-value pairs. -/
abbrev FlatRecord : Type := List (String × FlatValue)

/-- The schema of a model with no nested-model fields: its collection name,
primary-key field and field-type descriptors (§4.1's registry output). -/
structure FlatSchema where
  name : String
  pkField : String
  fields : List (String × FlatFieldType)
  deriving DecidableEq, Repr

/-- The record's fields align pointwise with the declared fields: same names
in the same order, each value inhabiting its declared type. -/
def alignedFlat : List (String × FlatFieldType) → List (String × FlatValue) → Bool
  | [], [] => true
  | (n, t) :: fs, (m, v) :: rs => n = m && flatTypeMatches t v && alignedFlat fs rs
  | _, _ => false

/-- Serialize a flat record to the stored field-name→string mapping. -/
def serializeFlatRecord (r : List (String × FlatValue)) : List (String × String) :=
  r.map (fun p => (p.1, String.mk (encFlatValue p.2)))

/-- Deserialize the declared fields out of a stored mapping (full mode: every
declared field must be present and coerce). -/
def deserializeFlatFields :
    List (String × FlatFieldType) → List (String × String) → Option (List (String × FlatValue))
  | [], _ => some []
  | (n, t) :: fs, m =>
    (lookupS n m).bind fun s =>
      (decFlatValue t s.data).bind fun v =>
        (deserializeFlatFields fs m).map fun tail => (n, v) :: tail

/-- Storage normalization of a whole flat record. -/
def normalizeFlatRecord (r : List (String × FlatValue)) : List (String × FlatValue) :=
  r.map (fun p => (p.1, normalizeFlatValue p.2))

theorem lookupS_cons_ne {β : Type} (n n' : String) (v : β) (m : List (String × β))
    (h : n ≠ n') : lookupS n' ((n, v) :: m) = lookupS n' m := by
  simp [lookupS, h]

theorem deserializeFlatFields_skip (fs : List (String × FlatFieldType)) (n : String)
    (s : String) (m : List (String × String)) (h : n ∉ fs.map Prod.fst) :
    deserializeFlatFields fs ((n, s) :: m) = deserializeFlatFields fs m := by
  induction fs with
  | nil => rfl
  | cons f fs ih =>
    obtain ⟨n', t⟩ := f
    have hne : n ≠ n' := by
      intro he
      exact h (by simp [he])
    have hrest : n ∉ fs.map Prod.fst := by
      intro hm
      exact h (by simp [hm])
    simp only [deserializeFlatFields, lookupS_cons_ne n n' s m hne, ih hrest]

theorem deserializeFlatFields_serialize (fs : List (String × FlatFieldType))
    (r : List (String × FlatValue)) (hal : alignedFlat fs r = true)
    (hnd : (fs.map Prod.fst).Nodup) :
    deserializeFlatFields fs (serializeFlatRecord r) = some (normalizeFlatRecord r) := by
  induction fs generalizing r with
  | nil =>
    cases r with
    | nil => rfl
    | cons p r' => simp [alignedFlat] at hal
  | cons f fs ih =>
    obtain ⟨n, t⟩ := f
    cases r with
    | nil => simp [alignedFlat] at hal
    | cons p r' =>
      obtain ⟨m, v⟩ := p
      simp only [alignedFlat, Bool.and_eq_true, decide_eq_true_eq] at hal
      obtain ⟨⟨hm, htv⟩, hal'⟩ := hal
      subst hm
      rw [List.map_cons] at hnd
      have hpair := List.nodup_cons.mp hnd
      have hnotin : n ∉ fs.map Prod.fst := hpair.1
      have hnd' : (fs.map Prod.fst).Nodup := hpair.2
      simp only [serializeFlatRecord, List.map_cons]
      rw [deserializeFlatFields, show lookupS n ((n, String.mk (encFlatValue v)) ::
          List.map (fun p => (p.1, String.mk (encFlatValue p.2))) r') =
          some (String.mk (encFlatValue v)) from by simp [lookupS]]
      rw [Option.some_bind]
      rw [show (String.mk (encFlatValue v)).data = encFlatValue v from rfl]
      rw [decFlatValue_encFlatValue t v htv, Option.some_bind]
      rw [deserializeFlatFields_skip fs n _ _ hnotin]
      rw [show List.map (fun p => (p.1, String.mk (encFlatValue p.2))) r' =
          serializeFlatRecord r' from rfl]
      rw [ih r' hal' hnd']
      rfl

/-! ## Full records, schemas and the modelled storage engine

Modelled from the spec: the engine behind the Collection operations lives in
the compiled `orredis.orredis` extension, so §4.3–§4.5 are modelled here: a
flat string key-value store, nested-model fields replaced by the nested
record's primary-key value on write and resolved by a fetch from the nested
collection on read, and the life-span resolution chain of §3. -/

/-- Declared type of a field: flat, or a nested-model field carrying the
nested model's schema (§4.1: the registry must distinguish the two). -/
inductive FieldType where
  | flat (t : FlatFieldType)
  | nested (ns : FlatSchema)
  deriving DecidableEq, Repr

/-- A model schema: class name, primary-key field, model-level default life
span, and field descriptors. -/
structure Schema where
  name : String
  pkField : String
  defaultLifeSpan : Option Nat
  fields : List (String × FieldType)
  deriving DecidableEq, Repr

/-- A field value: flat, or a nested record instance (given by its fields). -/
inductive Value where
  | flat (v : FlatValue)
  | nested (r : List (String × FlatValue))
  deriving DecidableEq, Repr

/-- A record instance: ordered field-name→value pairs. -/
abbrev RecordData : Type := List (String × Value)

/-- The key-value store: key → (stored field mapping, life span applied at
the write).  Writes prepend; reads take the most recent entry. -/
abbrev KVStore : Type := List (String × (List (String × String) × Option Nat))

/-- The stored field mapping under key `k`. -/
def getFlatMap (k : String) (σ : KVStore) : Option (List (String × String)) :=
  (lookupS k σ).map Prod.fst

/-- The life span recorded for key `k`. -/
def getLifeSpan (k : String) (σ : KVStore) : Option (Option Nat) :=
  (lookupS k σ).map Prod.snd

/-- Upsert one key. -/
def setKey (k : String) (m : List (String × String)) (ttl : Option Nat) (σ : KVStore) :
    KVStore :=
  (k, (m, ttl)) :: σ

/-- From `src/orredis/abstract.py` (`BaseModel.insert` / `BaseModel.update`):
`life_span = life_span_seconds if life_span_seconds is not None else
cls._life_span` — the explicit per-call value wins, otherwise the
collection/model default (which may itself be absent: no expiry). -/
def resolveLifeSpan (lifeSpanSeconds : Option Nat) (modelDefault : Option Nat) : Option Nat :=
  match lifeSpanSeconds with
  | some x => some x
  | Option.none => modelDefault

/-- The primary-key value of a nested record under its schema: must be a
string field (§3: convertible to a string and set before any write). -/
def nestedPk (ns : FlatSchema) (r : List (String × FlatValue)) : Option String :=
  match lookupS ns.pkField r with
  | some (.atom (.str s)) => some s
  | _ => Option.none

/-- The primary-key value of a top-level record under its schema. -/
def recordPk (s : Schema) (r : RecordData) : Option String :=
  match lookupS s.pkField r with
  | some (.flat (.atom (.str x))) => some x
  | _ => Option.none

/-- The value `v` inhabits the declared field type `t`.  For a nested-model
value this also demands a well-formed nested instance: aligned with the
nested schema, no duplicate field names, and a set primary key. -/
def valueTypeMatches : FieldType → Value → Bool
  | .flat t, .flat v => flatTypeMatches t v
  | .nested ns, .nested r =>
    alignedFlat ns.fields r && decide ((ns.fields.map Prod.fst).Nodup) &&
      (nestedPk ns r).isSome
  | _, _ => false

/-- The record's fields align pointwise with the schema's declared fields. -/
def alignedRec : List (String × FieldType) → List (String × Value) → Bool
  | [], [] => true
  | (n, t) :: fs, (m, v) :: rs => n = m && valueTypeMatches t v && alignedRec fs rs
  | _, _ => false

/-- Well-typed record: aligned with its schema, which has no duplicate field
names. -/
def wellTypedRec (s : Schema) (r : RecordData) : Prop :=
  alignedRec s.fields r = true ∧ (s.fields.map Prod.fst).Nodup

/-- Serialize one field for the parent's flat mapping (§4.3): a nested-model
value is replaced by the nested record's primary-key value, every other value
is stringified by its codec. -/
def serializeField : FieldType → Value → Option String
  | .flat _, .flat v => some (String.mk (encFlatValue v))
  | .nested ns, .nested r => nestedPk ns r
  | _, _ => Option.none

/-- Serialize every declared field of a record. -/
def serializeFields :
    List (String × FieldType) → RecordData → Option (List (String × String))
  | [], _ => some []
  | (n, t) :: fs, r =>
    (lookupS n r).bind fun v =>
      (serializeField t v).bind fun s =>
        (serializeFields fs r).map fun tail => (n, s) :: tail

/-- The upsert of one nested-model value into its own collection (§4.4). -/
def nestedWritesOf : FieldType → Value → List (String × List (String × String))
  | .nested ns, .nested r =>
    match nestedPk ns r with
    | some pk => [(getPrimaryKey ns.name pk, serializeFlatRecord r)]
    | Option.none => []
  | _, _ => []

/-- All nested upserts a record requires (§4.4: issued before/alongside the
parent write). -/
def collectNestedWrites :
    List (String × FieldType) → RecordData → List (String × List (String × String))
  | [], _ => []
  | (n, t) :: fs, r =>
    (match lookupS n r with
     | some v => nestedWritesOf t v
     | Option.none => []) ++ collectNestedWrites fs r

/-- Apply a batch of key writes, every one with the same resolved life span
(§3: the life span applies independently to every key written by an
operation, nested sub-records included). -/
def writeAll (ws : List (String × List (String × String))) (ttl : Option Nat)
    (σ : KVStore) : KVStore :=
  ws.foldl (fun acc w => setKey w.1 w.2 ttl acc) σ

/-- `insert one` (§4.5): nested-resolve, serialize, write the parent key. -/
def insertOne (s : Schema) (r : RecordData) (lifeSpanArg : Option Nat) (σ : KVStore) :
    Option KVStore :=
  match serializeFields s.fields r, recordPk s r with
  | some flat, some pk =>
    some (writeAll (collectNestedWrites s.fields r ++ [(getPrimaryKey s.name pk, flat)])
      (resolveLifeSpan lifeSpanArg s.defaultLifeSpan) σ)
  | _, _ => Option.none

/-- `insert many` (§4.5): each record inserted in order. -/
def insertMany (s : Schema) (rs : List RecordData) (lifeSpanArg : Option Nat)
    (σ : KVStore) : Option KVStore :=
  match rs with
  | [] => some σ
  | r :: rest => (insertOne s r lifeSpanArg σ).bind (insertMany s rest lifeSpanArg)

/-- Deserialize one field in full mode (§4.3): flat fields coerce their stored
string; a nested-model field's stored foreign key is resolved by fetching and
fully deserializing the referenced record from its own collection (§4.4). -/
def deserializeField (t : FieldType) (str : String) (σ : KVStore) : Option Value :=
  match t with
  | .flat ft => (decFlatValue ft str.data).map Value.flat
  | .nested ns =>
    (getFlatMap (getPrimaryKey ns.name str) σ).bind fun m =>
      (deserializeFlatFields ns.fields m).map Value.nested

/-- Deserialize every declared field out of a stored mapping (full mode). -/
def deserializeRecFields :
    List (String × FieldType) → List (String × String) → KVStore → Option RecordData
  | [], _, _ => some []
  | (n, t) :: fs, m, σ =>
    (lookupS n m).bind fun str =>
      (deserializeField t str σ).bind fun v =>
        (deserializeRecFields fs m σ).map fun tail => (n, v) :: tail

/-- `select one` (§4.5): full deserialize of the record stored under the
composite key; absent key gives the no-record sentinel. -/
def selectOne (s : Schema) (id : String) (σ : KVStore) : Option RecordData :=
  (getFlatMap (getPrimaryKey s.name id) σ).bind fun m =>
    deserializeRecFields s.fields m σ

/-- `delete one/many` (§4.5): removes the parent keys derived from the given
ids, and nothing else — deletion is never cascading. -/
def deleteMany (s : Schema) (ids : List String) (σ : KVStore) : KVStore :=
  σ.filter (fun e => !(ids.any (fun i => decide (getPrimaryKey s.name i = e.1))))

/-- Serialize the supplied fields of a (partial) update payload by their
declared types. -/
def serializeDataFields :
    List (String × FieldType) → RecordData → Option (List (String × String))
  | _, [] => some []
  | fields, (n, v) :: rest =>
    (lookupS n fields).bind fun t =>
      (serializeField t v).bind fun s =>
        (serializeDataFields fields rest).map fun tail => (n, s) :: tail

/-- The nested upserts required by an update payload (§4.5: nested-model
values in the update payload are resolved exactly as in insert). -/
def collectDataNestedWrites :
    List (String × FieldType) → RecordData → List (String × List (String × String))
  | _, [] => []
  | fields, (n, v) :: rest =>
    (match lookupS n fields with
     | some t => nestedWritesOf t v
     | Option.none => []) ++ collectDataNestedWrites fields rest

/-- Merge the freshly serialized update fields over the previously stored
mapping: a stored field keeps its value unless the payload supplies it. -/
def mergeStrMap (old upd : List (String × String)) : List (String × String) :=
  old.map (fun p =>
    match lookupS p.1 upd with
    | some s => (p.1, s)
    | Option.none => p)

/-- `update one` (§4.5, §4.3): read-modify-write — fetch the stored record
under the same composite key, merge the supplied fields onto it, resolve the
payload's nested-model values as in insert, and rewrite the parent. -/
def updateOne (s : Schema) (id : String) (data : RecordData) (lifeSpanArg : Option Nat)
    (σ : KVStore) : Option KVStore :=
  match getFlatMap (getPrimaryKey s.name id) σ with
  | Option.none => Option.none
  | some oldFlat =>
    (serializeDataFields s.fields data).map fun dataFlat =>
      writeAll (collectDataNestedWrites s.fields data ++
          [(getPrimaryKey s.name id, mergeStrMap oldFlat dataFlat)])
        (resolveLifeSpan lifeSpanArg s.defaultLifeSpan) σ

/-- Storage normalization of a field value. -/
def normalizeValue : Value → Value
  | .flat v => .flat (normalizeFlatValue v)
  | .nested r => .nested (normalizeFlatRecord r)

/-- Storage normalization of a record. -/
def normalizeRecord (r : RecordData) : RecordData :=
  r.map (fun p => (p.1, normalizeValue p.2))

/-- Storage-equality of flat records (§3). -/
def storageEqFlatRecord : List (String × FlatValue) → List (String × FlatValue) → Bool
  | [], [] => true
  | (n, v) :: xs, (m, w) :: ys =>
    n = m && storageEqFlatValue v w && storageEqFlatRecord xs ys
  | _, _ => false

/-- Storage-equality of field values (§3). -/
def storageEqValue : Value → Value → Bool
  | .flat v, .flat w => storageEqFlatValue v w
  | .nested r, .nested q => storageEqFlatRecord r q
  | _, _ => false

/-- Storage-equality of records (§3): every field compares equal after
normalizing timezone-aware temporal values to the canonical offset. -/
def storageEqRecord : RecordData → RecordData → Bool
  | [], [] => true
  | (n, v) :: xs, (m, w) :: ys =>
    n = m && storageEqValue v w && storageEqRecord xs ys
  | _, _ => false

/-- The keys an insert of `r` writes: all nested upsert keys, then the parent
composite key. -/
def writtenKeysInsert (s : Schema) (r : RecordData) : List String :=
  (collectNestedWrites s.fields r).map Prod.fst ++
    (match recordPk s r with
     | some pk => [getPrimaryKey s.name pk]
     | Option.none => [])

/-! ## Store-lookup lemmas -/

theorem writeAll_eq (ws : List (String × List (String × String))) (ttl : Option Nat)
    (σ : KVStore) :
    writeAll ws ttl σ = (ws.map (fun w => (w.1, (w.2, ttl)))).reverse ++ σ := by
  induction ws generalizing σ with
  | nil => rfl
  | cons w ws ih =>
    simp only [writeAll, List.foldl_cons, List.map_cons, List.reverse_cons]
    rw [show List.foldl (fun acc w => setKey w.1 w.2 ttl acc) (setKey w.1 w.2 ttl σ) ws =
        writeAll ws ttl (setKey w.1 w.2 ttl σ) from rfl]
    rw [ih]
    simp [setKey]

theorem lookupS_append {β : Type} (k : String) (xs ys : List (String × β)) :
    lookupS k (xs ++ ys) =
      match lookupS k xs with
      | some v => some v
      | Option.none => lookupS k ys := by
  induction xs with
  | nil => rfl
  | cons p xs ih =>
    obtain ⟨n, v⟩ := p
    by_cases h : n = k
    · simp [lookupS, h]
    · simp [lookupS, h, ih]

theorem lookupS_of_mem_nodup {β : Type} :
    ∀ (l : List (String × β)) (k : String) (v : β),
      (k, v) ∈ l → (l.map Prod.fst).Nodup → lookupS k l = some v := by
  intro l
  induction l with
  | nil => intro k v h _; simp at h
  | cons p l ih =>
    intro k v hmem hnd
    obtain ⟨n, w⟩ := p
    rw [List.map_cons] at hnd
    have hnd' := List.nodup_cons.mp hnd
    rcases List.mem_cons.mp hmem with h | h
    · obtain ⟨h1, h2⟩ := Prod.mk.inj h
      subst h1; subst h2
      simp [lookupS]
    · by_cases he : n = k
      · subst he
        exact absurd (by simpa using List.mem_map_of_mem Prod.fst h) hnd'.1
      · simp only [lookupS, if_neg he]
        exact ih k v h hnd'.2

theorem getFlatMap_writeAll_of_mem (ws : List (String × List (String × String)))
    (ttl : Option Nat) (σ : KVStore) (k : String) (m : List (String × String))
    (hmem : (k, m) ∈ ws) (hnd : (ws.map Prod.fst).Nodup) :
    getFlatMap k (writeAll ws ttl σ) = some m ∧
      getLifeSpan k (writeAll ws ttl σ) = some ttl := by
  rw [writeAll_eq]
  have hmem' : (k, (m, ttl)) ∈ (ws.map (fun w => (w.1, (w.2, ttl)))).reverse := by
    rw [List.mem_reverse]
    exact List.mem_map_of_mem _ hmem
  have hnd' : (((ws.map (fun w => (w.1, (w.2, ttl)))).reverse).map Prod.fst).Nodup := by
    rw [List.map_reverse, List.nodup_reverse, List.map_map]
    simpa using hnd
  have hlook := lookupS_of_mem_nodup _ k (m, ttl) hmem' hnd'
  constructor
  · rw [getFlatMap, lookupS_append, hlook]
    rfl
  · rw [getLifeSpan, lookupS_append, hlook]
    rfl


/-! ## Alignment and serialization lemmas -/

theorem lookupS_mem_names {β : Type} :
    ∀ (l : List (String × β)) (n : String) (v : β),
      lookupS n l = some v → n ∈ l.map Prod.fst := by
  intro l
  induction l with
  | nil => intro n v h; simp [lookupS] at h
  | cons p l ih =>
    intro n v h
    obtain ⟨m, w⟩ := p
    by_cases he : m = n
    · simp [he]
    · simp only [lookupS, if_neg he] at h
      simp [ih n v h]

theorem serializeFields_skip :
    ∀ (fs : List (String × FieldType)) (n : String) (v : Value) (r : List (String × Value)),
      n ∉ fs.map Prod.fst →
      serializeFields fs ((n, v) :: r) = serializeFields fs r := by
  intro fs
  induction fs with
  | nil => intro n v r _; rfl
  | cons f fs ih =>
    intro n v r h
    obtain ⟨n', t⟩ := f
    have hne : n ≠ n' := fun he => h (by simp [he])
    have hrest : n ∉ fs.map Prod.fst := fun hm => h (by simp [hm])
    simp only [serializeFields, lookupS_cons_ne n n' v r hne, ih n v r hrest]

theorem collectNestedWrites_skip :
    ∀ (fs : List (String × FieldType)) (n : String) (v : Value) (r : List (String × Value)),
      n ∉ fs.map Prod.fst →
      collectNestedWrites fs ((n, v) :: r) = collectNestedWrites fs r := by
  intro fs
  induction fs with
  | nil => intro n v r _; rfl
  | cons f fs ih =>
    intro n v r h
    obtain ⟨n', t⟩ := f
    have hne : n ≠ n' := fun he => h (by simp [he])
    have hrest : n ∉ fs.map Prod.fst := fun hm => h (by simp [hm])
    simp only [collectNestedWrites, lookupS_cons_ne n n' v r hne, ih n v r hrest]

theorem deserializeRecFields_skip :
    ∀ (fs : List (String × FieldType)) (n : String) (s : String)
      (m : List (String × String)) (σ : KVStore), n ∉ fs.map Prod.fst →
      deserializeRecFields fs ((n, s) :: m) σ = deserializeRecFields fs m σ := by
  intro fs
  induction fs with
  | nil => intro n s m σ _; rfl
  | cons f fs ih =>
    intro n s m σ h
    obtain ⟨n', t⟩ := f
    have hne : n ≠ n' := fun he => h (by simp [he])
    have hrest : n ∉ fs.map Prod.fst := fun hm => h (by simp [hm])
    simp only [deserializeRecFields, lookupS_cons_ne n n' s m hne, ih n s m σ hrest]

theorem serializeField_ok (t : FieldType) (v : Value) (htv : valueTypeMatches t v = true) :
    ∃ s, serializeField t v = some s := by
  cases t with
  | flat ft =>
    cases v with
    | flat fv => exact ⟨String.mk (encFlatValue fv), rfl⟩
    | nested q => simp [valueTypeMatches] at htv
  | nested ns =>
    cases v with
    | flat fv => simp [valueTypeMatches] at htv
    | nested q =>
      simp only [valueTypeMatches, Bool.and_eq_true, Option.isSome_iff_exists] at htv
      obtain ⟨_, pk, hpk⟩ := htv
      exact ⟨pk, hpk⟩

theorem deserializeField_roundtrip (t : FieldType) (v : Value) (s : String) (σ : KVStore)
    (htv : valueTypeMatches t v = true) (hs : serializeField t v = some s)
    (hav : ∀ ns q pk, t = FieldType.nested ns → v = Value.nested q →
      nestedPk ns q = some pk →
      getFlatMap (getPrimaryKey ns.name pk) σ = some (serializeFlatRecord q)) :
    deserializeField t s σ = some (normalizeValue v) := by
  cases t with
  | flat ft =>
    cases v with
    | flat fv =>
      simp only [serializeField, Option.some.injEq] at hs
      subst hs
      simp only [valueTypeMatches] at htv
      simp [deserializeField, decFlatValue_encFlatValue ft fv htv, normalizeValue]
    | nested q => simp [valueTypeMatches] at htv
  | nested ns =>
    cases v with
    | flat fv => simp [valueTypeMatches] at htv
    | nested q =>
      simp only [serializeField] at hs
      simp only [valueTypeMatches, Bool.and_eq_true, decide_eq_true_eq] at htv
      obtain ⟨⟨halq, hndq⟩, _⟩ := htv
      have hget := hav ns q s rfl rfl hs
      simp only [deserializeField, hget, Option.some_bind]
      rw [deserializeFlatFields_serialize ns.fields q halq hndq]
      simp [normalizeValue]

theorem serializeFields_deserialize (fs : List (String × FieldType)) :
    ∀ (r : List (String × Value)) (σ : KVStore),
      alignedRec fs r = true → (fs.map Prod.fst).Nodup →
      (∀ n ns q pk, lookupS n fs = some (FieldType.nested ns) →
        lookupS n r = some (Value.nested q) → nestedPk ns q = some pk →
        getFlatMap (getPrimaryKey ns.name pk) σ = some (serializeFlatRecord q)) →
      ∃ flat, serializeFields fs r = some flat ∧
        deserializeRecFields fs flat σ = some (normalizeRecord r) := by
  induction fs with
  | nil =>
    intro r σ hal _ _
    cases r with
    | nil => exact ⟨[], rfl, rfl⟩
    | cons p rs => simp [alignedRec] at hal
  | cons f fs ih =>
    intro r σ hal hnd hav
    obtain ⟨n, t⟩ := f
    cases r with
    | nil => simp [alignedRec] at hal
    | cons p rs =>
      obtain ⟨m, v⟩ := p
      simp only [alignedRec, Bool.and_eq_true, decide_eq_true_eq] at hal
      obtain ⟨⟨hm, htv⟩, hal'⟩ := hal
      subst hm
      rw [List.map_cons] at hnd
      have hp := List.nodup_cons.mp hnd
      obtain ⟨sv, hsv⟩ := serializeField_ok t v htv
      have hav' : ∀ n' ns q pk, lookupS n' fs = some (FieldType.nested ns) →
          lookupS n' rs = some (Value.nested q) → nestedPk ns q = some pk →
          getFlatMap (getPrimaryKey ns.name pk) σ = some (serializeFlatRecord q) := by
        intro n' ns q pk h1 h2 h3
        have hne : n ≠ n' := fun he => hp.1 (he ▸ lookupS_mem_names fs n' _ h1)
        refine hav n' ns q pk ?_ ?_ h3
        · rw [lookupS_cons_ne n n' t fs hne]; exact h1
        · rw [lookupS_cons_ne n n' v rs hne]; exact h2
      obtain ⟨flatTail, hser, hdes⟩ := ih rs σ hal' hp.2 hav'
      refine ⟨(n, sv) :: flatTail, ?_, ?_⟩
      · simp [serializeFields, lookupS, serializeFields_skip fs n v rs hp.1, hser, hsv]
      · have hfield : deserializeField t sv σ = some (normalizeValue v) := by
          refine deserializeField_roundtrip t v sv σ htv hsv ?_
          intro ns q pk h1 h2 h3
          subst h1; subst h2
          refine hav n ns q pk ?_ ?_ h3 <;> simp [lookupS]
        simp [deserializeRecFields, lookupS, deserializeRecFields_skip fs n sv flatTail σ hp.1,
          hdes, hfield, normalizeRecord]

/-! ## Storage-equality of a record with its normalization -/

theorem storageEqFlatRecord_normalize (r : List (String × FlatValue)) :
    storageEqFlatRecord r (normalizeFlatRecord r) = true := by
  induction r with
  | nil => rfl
  | cons p rs ih =>
    obtain ⟨n, v⟩ := p
    simp [normalizeFlatRecord, storageEqFlatRecord, storageEqFlatValue_normalize,
      normalizeFlatRecord] at ih ⊢
    exact ih

theorem storageEqValue_normalize (v : Value) :
    storageEqValue v (normalizeValue v) = true := by
  cases v with
  | flat fv => simp [storageEqValue, normalizeValue, storageEqFlatValue_normalize]
  | nested q => simp [storageEqValue, normalizeValue, storageEqFlatRecord_normalize]

theorem storageEqRecord_normalize (r : RecordData) :
    storageEqRecord r (normalizeRecord r) = true := by
  induction r with
  | nil => rfl
  | cons p rs ih =>
    obtain ⟨n, v⟩ := p
    simp [normalizeRecord, storageEqRecord, storageEqValue_normalize,
      normalizeRecord] at ih ⊢
    exact ih

theorem mem_collectNestedWrites :
    ∀ (fs : List (String × FieldType)) (r : List (String × Value)) (n : String)
      (ns : FlatSchema) (q : List (String × FlatValue)) (pk : String),
      lookupS n fs = some (FieldType.nested ns) → lookupS n r = some (Value.nested q) →
      nestedPk ns q = some pk →
      (getPrimaryKey ns.name pk, serializeFlatRecord q) ∈ collectNestedWrites fs r := by
  intro fs
  induction fs with
  | nil => intro r n ns q pk h1 _ _; simp [lookupS] at h1
  | cons f fs ih =>
    intro r n ns q pk h1 h2 h3
    obtain ⟨n', t⟩ := f
    by_cases he : n' = n
    · subst he
      have ht : t = FieldType.nested ns := by
        have := h1
        simp only [lookupS, if_pos rfl] at this
        exact Option.some.inj this
      subst ht
      simp only [collectNestedWrites, h2, nestedWritesOf, h3, List.mem_append]
      exact Or.inl (List.mem_singleton.mpr rfl)
    · simp only [lookupS, if_neg he] at h1
      simp only [collectNestedWrites, List.mem_append]
      exact Or.inr (ih r n ns q pk h1 h2 h3)

theorem serializeFields_exists :
    ∀ (fs : List (String × FieldType)) (r : List (String × Value)),
      alignedRec fs r = true → (fs.map Prod.fst).Nodup →
      ∃ flat, serializeFields fs r = some flat := by
  intro fs
  induction fs with
  | nil =>
    intro r hal _
    exact ⟨[], rfl⟩
  | cons f fs ih =>
    intro r hal hnd
    obtain ⟨n, t⟩ := f
    cases r with
    | nil => simp [alignedRec] at hal
    | cons p rs =>
      obtain ⟨m, v⟩ := p
      simp only [alignedRec, Bool.and_eq_true, decide_eq_true_eq] at hal
      obtain ⟨⟨hm, htv⟩, hal'⟩ := hal
      subst hm
      rw [List.map_cons] at hnd
      have hp := List.nodup_cons.mp hnd
      obtain ⟨sv, hsv⟩ := serializeField_ok t v htv
      obtain ⟨flatTail, hser⟩ := ih rs hal' hp.2
      refine ⟨(n, sv) :: flatTail, ?_⟩
      simp [serializeFields, lookupS, serializeFields_skip fs n v rs hp.1, hser, hsv]

/-- C1: for every record whose fields hold supported scalar kinds (int,
float, bool, string, date, datetime, tuple/list of primitives) or a
nested-model value, deserializing the serialized form of the record —
inserting it and then selecting it by its primary key — yields a record that
is storage-equal to the original.  Hypotheses: the record is well-typed
against its schema, its primary key is set, and the keys the insert writes
(the nested upsert keys and the parent's composite key) are pairwise
distinct, the distinct-collections assumption implicit in §3's data model. -/
theorem insert_select_roundtrip (σ : KVStore) (s : Schema) (r : RecordData) (pk : String)
    (lifeSpanArg : Option Nat)
    (hwt : wellTypedRec s r) (hpk : recordPk s r = some pk)
    (hkeys : (writtenKeysInsert s r).Nodup) :
    ∃ σ' r', insertOne s r lifeSpanArg σ = some σ' ∧
      selectOne s pk σ' = some r' ∧ storageEqRecord r r' = true := by
  obtain ⟨hal, hnd⟩ := hwt
  obtain ⟨flat, hser⟩ := serializeFields_exists s.fields r hal hnd
  refine ⟨writeAll (collectNestedWrites s.fields r ++ [(getPrimaryKey s.name pk, flat)])
    (resolveLifeSpan lifeSpanArg s.defaultLifeSpan) σ, normalizeRecord r, ?_, ?_, ?_⟩
  · simp [insertOne, hser, hpk]
  · have hws_keys : ((collectNestedWrites s.fields r ++
        [(getPrimaryKey s.name pk, flat)]).map Prod.fst) = writtenKeysInsert s r := by
      simp [writtenKeysInsert, hpk]
    have hndws := hws_keys ▸ hkeys
    have hav : ∀ n ns q pk', lookupS n s.fields = some (FieldType.nested ns) →
        lookupS n r = some (Value.nested q) → nestedPk ns q = some pk' →
        getFlatMap (getPrimaryKey ns.name pk')
          (writeAll (collectNestedWrites s.fields r ++ [(getPrimaryKey s.name pk, flat)])
            (resolveLifeSpan lifeSpanArg s.defaultLifeSpan) σ) =
          some (serializeFlatRecord q) := by
      intro n ns q pk' h1 h2 h3
      have hmem := mem_collectNestedWrites s.fields r n ns q pk' h1 h2 h3
      exact (getFlatMap_writeAll_of_mem _ _ σ _ _ (List.mem_append_left _ hmem) hndws).1
    obtain ⟨flat1, hser1, hdes1⟩ := serializeFields_deserialize s.fields r _ hal hnd hav
    have hfe : flat1 = flat := by
      rw [hser] at hser1
      exact (Option.some.inj hser1).symm
    subst hfe
    have hK := (getFlatMap_writeAll_of_mem
      (collectNestedWrites s.fields r ++ [(getPrimaryKey s.name pk, flat1)])
      (resolveLifeSpan lifeSpanArg s.defaultLifeSpan) σ (getPrimaryKey s.name pk) flat1
      (List.mem_append_right _ (List.mem_singleton.mpr rfl)) hndws).1
    rw [selectOne, hK, Option.some_bind, hdes1]
  · exact storageEqRecord_normalize r

/-! ## Concrete fixtures — the Book/Author models of the repository's tests
(`src/test/conftest.py`) -/

/-- The `Author` model: `name: str` (primary key), `active_years: Tuple[int,
int]`. -/
def authorSchema : FlatSchema :=
  ⟨"Author", "name", [("name", .atomK .str), ("active_years", .listK .int)]⟩

/-- The `Book` model: `title: str` (primary key), `author: Author`,
`rating: float`, `published_on: date`, `last_updated: datetime`,
`tags: List[str]`, `in_stock: bool`. -/
def bookSchema : Schema :=
  ⟨"Book", "title", Option.none,
    [("title", .flat (.atomK .str)),
     ("author", .nested authorSchema),
     ("rating", .flat (.atomK .float)),
     ("published_on", .flat (.atomK .date)),
     ("last_updated", .flat (.atomK .datetime)),
     ("tags", .flat (.listK .str)),
     ("in_stock", .flat (.atomK .bool))]⟩

/-- `Author(name="Charles Dickens", active_years=(1220, 1280))`. -/
def charlesRec : List (String × FlatValue) :=
  [("name", .atom (.str "Charles Dickens")),
   ("active_years", .list [.int 1220, .int 1280])]

/-- `Book(title="Oliver Twist", author=charles, published_on=date(1215, 4, 4),
in_stock=False, rating=2, tags=["Classic"])`, with the default
`last_updated` expressed at a non-canonical offset. -/
def oliverTwist : RecordData :=
  [("title", .flat (.atom (.str "Oliver Twist"))),
   ("author", .nested charlesRec),
   ("rating", .flat (.atom (.float ⟨false, 2, 0⟩))),
   ("published_on", .flat (.atom (.date ⟨1215, 4, 4⟩))),
   ("last_updated", .flat (.atom (.datetime ⟨27719310, 120⟩))),
   ("tags", .flat (.list [.str "Classic"])),
   ("in_stock", .flat (.atom (.bool false)))]

/-- Witness for C1: the Book/Author fixture of the tests satisfies every
hypothesis, and the insert-then-select round trip holds for it. -/
theorem insert_select_roundtrip_witness :
    wellTypedRec bookSchema oliverTwist ∧
    recordPk bookSchema oliverTwist = some "Oliver Twist" ∧
    (writtenKeysInsert bookSchema oliverTwist).Nodup ∧
    ∃ σ' r', insertOne bookSchema oliverTwist Option.none [] = some σ' ∧
      selectOne bookSchema "Oliver Twist" σ' = some r' ∧
      storageEqRecord oliverTwist r' = true :=
  ⟨⟨by decide, by decide⟩, by decide, by decide,
    insert_select_roundtrip [] bookSchema oliverTwist "Oliver Twist" Option.none
      ⟨by decide, by decide⟩ (by decide) (by decide)⟩

/-! ## C2 — the composite key codec -/

theorem strEq_of_data (a b : String) (h : a.data = b.data) : a = b := by
  cases a; cases b
  simp only at h
  rw [h]

theorem strData_append (a b : String) : (a ++ b).data = a.data ++ b.data := rfl

/-- Splitting at the separator is unambiguous as soon as the left components
contain no `'%'` (the separator's second character anchors the split: the
first `'%'` of the whole key sits right after the table name). -/
theorem sep_split_inj :
    ∀ (a₁ a₂ b₁ b₂ : List Char), '%' ∉ a₁ → '%' ∉ a₂ →
      a₁ ++ (sepChars ++ b₁) = a₂ ++ (sepChars ++ b₂) → a₁ = a₂ ∧ b₁ = b₂ := by
  intro a₁
  induction a₁ with
  | nil =>
    intro a₂ b₁ b₂ _ h2 h
    cases a₂ with
    | nil => exact ⟨rfl, by simpa using h⟩
    | cons c cs =>
      exfalso
      simp only [sepChars, List.nil_append, List.cons_append, List.cons.injEq] at h
      obtain ⟨hc, h⟩ := h
      cases cs with
      | nil => simp at h
      | cons c' cs' =>
        simp only [List.cons_append, List.cons.injEq] at h
        exact h2 (by
          rw [show ('%' : Char) = c' from h.1]
          exact List.mem_cons_of_mem c (List.mem_cons_self c' cs'))
  | cons c cs ih =>
    intro a₂ b₁ b₂ h1 h2 h
    cases a₂ with
    | nil =>
      exfalso
      simp only [sepChars, List.nil_append, List.cons_append, List.cons.injEq] at h
      obtain ⟨hc, h⟩ := h
      cases cs with
      | nil => simp at h
      | cons c' cs' =>
        simp only [List.cons_append, List.cons.injEq] at h
        exact h1 (by
          rw [show ('%' : Char) = c' from h.1.symm]
          exact List.mem_cons_of_mem c (List.mem_cons_self c' cs'))
    | cons d ds =>
      simp only [List.cons_append, List.cons.injEq] at h
      obtain ⟨hcd, h⟩ := h
      subst hcd
      have h1' : '%' ∉ cs := fun hm => h1 (List.mem_cons_of_mem _ hm)
      have h2' : '%' ∉ ds := fun hm => h2 (List.mem_cons_of_mem _ hm)
      obtain ⟨he, hb⟩ := ih ds b₁ b₂ h1' h2' h
      exact ⟨by rw [he], hb⟩

/-- Counterexample to C2 as stated: the pairs `("Author", "x")` and
`("AUTHOR", "x")` are distinct, neither component contains the separator
sequence, yet both derive the same composite key, because the codec
lower-cases the model name before concatenation. -/
theorem key_codec_counterexample :
    getPrimaryKey "Author" "x" = getPrimaryKey "AUTHOR" "x" ∧
    ("Author", "x") ≠ (("AUTHOR" : String), ("x" : String)) ∧
    hasSeparator "Author" = false ∧ hasSeparator "AUTHOR" = false ∧
    hasSeparator "x" = false := by
  refine ⟨by decide, by decide, by decide, by decide, by decide⟩

/-- C2 (amended): the derived composite key equals the lower-cased model
name, the separator `"_%&_"`, and the string form of the primary-key value;
the derivation is a pure function of the pair (deterministic); and distinct
(lower-cased model name, primary-key value) pairs yield distinct keys.  Model
type names are Python identifiers, rendered by the hypothesis that the
lower-cased name contains no `'%'`; the claim's no-separator proviso on the
primary-key values is kept. -/
theorem key_codec_shape_and_injective (c₁ c₂ pk₁ pk₂ : String)
    (hn₁ : '%' ∉ (getTableName c₁).data) (hn₂ : '%' ∉ (getTableName c₂).data)
    (hp₁ : hasSeparator pk₁ = false) (hp₂ : hasSeparator pk₂ = false)
    (hne : (getTableName c₁, pk₁) ≠ (getTableName c₂, pk₂)) :
    getPrimaryKey c₁ pk₁ = strLower c₁ ++ "_%&_" ++ pk₁ ∧
    getPrimaryKey c₁ pk₁ ≠ getPrimaryKey c₂ pk₂ := by
  refine ⟨rfl, ?_⟩
  intro heq
  apply hne
  have hdata : (getTableName c₁).data ++ (sepChars ++ pk₁.data) =
      (getTableName c₂).data ++ (sepChars ++ pk₂.data) := by
    have := congrArg String.data heq
    simp only [getPrimaryKey, strData_append] at this
    simpa [List.append_assoc] using this
  obtain ⟨ha, hb⟩ := sep_split_inj _ _ _ _ hn₁ hn₂ hdata
  rw [strEq_of_data _ _ ha, strEq_of_data _ _ hb]

/-- Witness for the amended C2 at the fixture models. -/
theorem key_codec_shape_and_injective_witness :
    '%' ∉ (getTableName "Author").data ∧ '%' ∉ (getTableName "Book").data ∧
    hasSeparator "Charles Dickens" = false ∧ hasSeparator "Oliver Twist" = false ∧
    (getTableName "Author", ("Charles Dickens" : String)) ≠
      (getTableName "Book", ("Oliver Twist" : String)) ∧
    (getPrimaryKey "Author" "Charles Dickens" =
        strLower "Author" ++ "_%&_" ++ "Charles Dickens" ∧
      getPrimaryKey "Author" "Charles Dickens" ≠ getPrimaryKey "Book" "Oliver Twist") :=
  ⟨by decide, by decide, by decide, by decide, by decide,
    key_codec_shape_and_injective "Author" "Book" "Charles Dickens" "Oliver Twist"
      (by decide) (by decide) (by decide) (by decide) (by decide)⟩

/-! ## C6 — key derivation never fails -/

deriving instance DecidableEq for Except

/-- Counterexample to C6 as stated: `Model.__get_primary_key` is a single
f-string.  For an empty primary key it returns the ordinary key
`"book_%&_"`, and for `None` it returns `"book_%&_None"` — no `InvalidKey`
error exists on this path, the operation does not fail. -/
theorem get_primary_key_total_counterexample :
    getPrimaryKeyVal "Book" (PyVal.str "") = Except.ok "book_%&_" ∧
    getPrimaryKeyVal "Book" PyVal.none = Except.ok "book_%&_None" := by
  refine ⟨?_, ?_⟩ <;> decide

/-- C6 (amended): key derivation is total.  For every class name and every
primary-key value — empty, `None`, or any other value — the derivation
returns the ordinary composite key built from the value's string form, and
never fails. -/
theorem get_primary_key_never_fails (className : String) (primaryKeyValue : PyVal) :
    getPrimaryKeyVal className primaryKeyValue =
      Except.ok (getTableName className ++ "_%&_" ++ pyStr primaryKeyValue) := rfl

/-! ## Collection registration — from `src/orredis/store.py`

```python
class Store(_AbstractStore):
    models: Dict[str, type(Model)] = {}

    def register_model(self, model_class: type(Model)):
        if not isinstance(model_class.get_primary_key_field(), str):
            raise NotImplementedError(f"{model_class.__name__} should have a _primary_key_field")
        model_class._store = self
        self.models[model_class.__name__.lower()] = model_class

    def model(self, name: str) -> Model:
        return self.models[name.lower()]
```

`models` is a class attribute: `self.models[...] = ...` is item assignment on
that one shared dict, so the registry is a single process-wide mapping and a
`Store` instance is only a handle to it.  The embedding makes that explicit:
the registry lives in `ProcState`, and the store-instance argument of each
operation is unused, exactly as `self` only reaches the class-level dict. -/

/-- The Python errors the embedded fragments can raise. -/
inductive PyErr where
  | attributeError
  | notImplementedError
  | valueError (msg : String)
  deriving DecidableEq, Repr

/-- A model class as `register_model` inspects it: its name, its declared
field names, and the `_primary_key_field` class attribute (`Option.none`
means the attribute was never set). -/
structure ModelClass where
  name : String
  fields : List String
  primaryKeyField : Option PyVal
  deriving DecidableEq, Repr

/-- The process-wide state: the single class-level `Store.models` dict. -/
structure ProcState where
  registry : List (String × ModelClass)
  deriving DecidableEq, Repr

/-- `Store.register_model`.  `storeId` identifies the `self` instance; it is
unused because the method only touches the class-level dict (and the model
class itself).  Reading an unset `_primary_key_field` raises
`AttributeError`; a set non-string value fails `isinstance(..., str)` and
raises `NotImplementedError`; otherwise the model is written into the shared
registry under its lower-cased class name. -/
def registerModel (σ : ProcState) (storeId : Nat) (m : ModelClass) :
    Except PyErr ProcState :=
  match m.primaryKeyField with
  | Option.none => Except.error PyErr.attributeError
  | some v =>
    if v.isStr then Except.ok ⟨(strLower m.name, m) :: σ.registry⟩
    else Except.error PyErr.notImplementedError

/-- `Store.model`: case-insensitive lookup in the shared registry (again the
instance is unused). -/
def modelLookup (σ : ProcState) (storeId : Nat) (name : String) : Option ModelClass :=
  lookupS (strLower name) σ.registry

/-- A model whose declared fields do not include its primary-key field
name. -/
def modelWithStrayKey : ModelClass := ⟨"Stray", ["title"], some (PyVal.str "name")⟩

/-- Counterexample to C4 as stated: registering a collection whose
primary-key field name (`"name"`) is absent from the model's declared fields
(`["title"]`) succeeds — no error of any kind is raised and the collection IS
registered.  `register_model` only checks `isinstance(pk_field, str)`; it
never consults the declared fields. -/
theorem register_model_missing_field_counterexample :
    modelWithStrayKey.primaryKeyField = some (PyVal.str "name") ∧
    "name" ∉ modelWithStrayKey.fields ∧
    registerModel ⟨[]⟩ 0 modelWithStrayKey =
      Except.ok ⟨[("stray", modelWithStrayKey)]⟩ ∧
    modelLookup ⟨[("stray", modelWithStrayKey)]⟩ 0 "Stray" = some modelWithStrayKey := by
  refine ⟨rfl, by decide, by decide, by decide⟩

/-- C4 (amended): registration fails iff the model's `_primary_key_field` is
unset or not a string — whether the field name occurs among the model's
declared fields is never checked.  On success the collection is registered
under the lower-cased class name; on failure the `Except` short-circuits
before the registry write, so nothing is registered. -/
theorem register_model_string_check (σ : ProcState) (storeId : Nat) (m : ModelClass) :
    (∃ σ', registerModel σ storeId m = Except.ok σ' ∧
        modelLookup σ' storeId m.name = some m) ↔
      (∃ s, m.primaryKeyField = some (PyVal.str s)) := by
  constructor
  · rintro ⟨σ', hok, _⟩
    match hm : m.primaryKeyField with
    | Option.none => simp [registerModel, hm] at hok
    | some (PyVal.str s) => exact ⟨s, rfl⟩
    | some (PyVal.int n) => simp [registerModel, hm, PyVal.isStr] at hok
    | some PyVal.none => simp [registerModel, hm, PyVal.isStr] at hok
  · rintro ⟨s, hs⟩
    refine ⟨⟨(strLower m.name, m) :: σ.registry⟩, ?_, ?_⟩
    · simp [registerModel, hs, PyVal.isStr]
    · simp [modelLookup, lookupS]

/-- The `Author` model class of the test fixtures. -/
def authorModelClass : ModelClass :=
  ⟨"Author", ["name", "active_years"], some (PyVal.str "name")⟩

/-- C10: the model registry is class-level state shared by every `Store`
instance — after any store instance registers a model class, looking the
model up by its name (case-insensitively) through ANY store instance returns
that class. -/
theorem registry_shared_across_stores (σ σ' : ProcState) (s₁ s₂ : Nat) (m : ModelClass)
    (q : String) (hreg : registerModel σ s₁ m = Except.ok σ')
    (hq : strLower q = strLower m.name) :
    modelLookup σ' s₂ q = some m := by
  match hm : m.primaryKeyField with
  | Option.none => simp [registerModel, hm] at hreg
  | some v =>
    by_cases hv : v.isStr = true
    · simp only [registerModel, hm, hv, if_true] at hreg
      have := Except.ok.inj hreg
      rw [← this]
      simp [modelLookup, hq, lookupS]
    · simp [registerModel, hm, hv] at hreg

/-- Witness for C10: store instance `0` registers `Author`; store instance
`1` finds it under the differently-cased name `"AUTHOR"`. -/
theorem registry_shared_across_stores_witness :
    registerModel ⟨[]⟩ 0 authorModelClass =
      Except.ok ⟨[("author", authorModelClass)]⟩ ∧
    strLower "AUTHOR" = strLower authorModelClass.name ∧
    modelLookup ⟨[("author", authorModelClass)]⟩ 1 "AUTHOR" = some authorModelClass :=
  ⟨by decide, by decide,
    registry_shared_across_stores ⟨[]⟩ ⟨[("author", authorModelClass)]⟩ 0 1
      authorModelClass "AUTHOR" (by decide) (by decide)⟩

/-! ## C8 — malformed `insert` arguments

Two variants exist in the sources.  `BaseModel.insert`
(`src/orredis/abstract.py`) dispatches on the argument shape before touching
anything:

```python
if isinstance(data, list):
    return cls._store.insert_many(...)
elif isinstance(data, cls):
    return cls._store.insert_one(...)
raise ValueError("data should be a list of models or a single model instance")
```

`Model.insert` (`src/orredis/model.py`) first enters the connection context
manager (`with cls._store.connection as store:` — whose `__enter__` reopens
the redis connection if it is closed, `src/orredis/connection.py`) and only
then dispatches, raising inside the `with` block:

```python
with cls._store.connection as store:
    if isinstance(data, list): ...
    elif isinstance(data, _AbstractModel): ...
    else:
        raise ValueError(f"data should be a model or a list of models not {type(data)}")
```

The embedding records the externally visible transport interactions of a
call as an event trace. -/

/-- Externally visible transport interactions. -/
inductive TransportEvent where
  | connOpen
  | connClose
  | keyRead (k : String)
  | keyWrite (k : String)
  | storeCall (opName : String)
  deriving DecidableEq, Repr

/-- The argument passed to `insert`: an instance of the model, a list of
instances, or any other Python value (carrying its type name). -/
inductive InsertArg where
  | record (r : RecordData)
  | list (rs : List RecordData)
  | other (typeName : String)
  deriving DecidableEq, Repr

/-- `BaseModel.insert` of `src/orredis/abstract.py`: argument-shape dispatch
before any transport interaction. -/
def baseModelInsert (modelName : String) (data : InsertArg) :
    List TransportEvent × Except PyErr Unit :=
  match data with
  | .list _ => ([TransportEvent.storeCall "insert_many"], Except.ok ())
  | .record _ => ([TransportEvent.storeCall "insert_one"], Except.ok ())
  | .other _ =>
    ([], Except.error (PyErr.valueError
      "data should be a list of models or a single model instance"))

/-- `Model.insert` of `src/orredis/model.py`: the connection context is
entered first (open on entry, close on every exit path, the raising one
included), then the argument shape is checked. -/
def modelInsert (modelName : String) (data : InsertArg) :
    List TransportEvent × Except PyErr Unit :=
  match data with
  | .list _ =>
    ([TransportEvent.connOpen, TransportEvent.storeCall "insert_dict_list",
      TransportEvent.connClose], Except.ok ())
  | .record _ =>
    ([TransportEvent.connOpen, TransportEvent.storeCall "insert_dict",
      TransportEvent.connClose], Except.ok ())
  | .other t =>
    ([TransportEvent.connOpen, TransportEvent.connClose],
      Except.error (PyErr.valueError
        ("data should be a model or a list of models not " ++ t)))

/-- Counterexample to C8 as stated: `Model.insert` given a non-record,
non-list argument does raise `ValueError`, but the redis connection context
has already been entered (and is closed on the raising path) — connection
interaction with the store occurs before the error, contradicting "no
connection interaction with the store occurs first". -/
theorem insert_bad_input_counterexample :
    modelInsert "Book" (InsertArg.other "int") =
      ([TransportEvent.connOpen, TransportEvent.connClose],
        Except.error (PyErr.valueError
          "data should be a model or a list of models not int")) ∧
    (modelInsert "Book" (InsertArg.other "int")).1 ≠ [] := by
  refine ⟨by decide, by decide⟩

/-- C8 (amended): for every `insert` call whose data argument is neither a
record instance nor a list of record instances, both variants raise a
ValueError synchronously and no key is read or written and no store
operation is invoked first; `BaseModel.insert` performs no transport
interaction at all, while `Model.insert` opens and closes the redis
connection context around the raise. -/
theorem insert_bad_input_value_error (modelName typeName : String) :
    (∃ msg, (baseModelInsert modelName (InsertArg.other typeName)).2 =
      Except.error (PyErr.valueError msg)) ∧
    (baseModelInsert modelName (InsertArg.other typeName)).1 = [] ∧
    (∃ msg, (modelInsert modelName (InsertArg.other typeName)).2 =
      Except.error (PyErr.valueError msg)) ∧
    (modelInsert modelName (InsertArg.other typeName)).1 =
      [TransportEvent.connOpen, TransportEvent.connClose] ∧
    (∀ e ∈ (modelInsert modelName (InsertArg.other typeName)).1,
      (∀ k, e ≠ TransportEvent.keyRead k ∧ e ≠ TransportEvent.keyWrite k) ∧
        ∀ op, e ≠ TransportEvent.storeCall op) := by
  refine ⟨⟨_, rfl⟩, rfl, ⟨_, rfl⟩, rfl, ?_⟩
  intro e he
  rcases List.mem_cons.mp he with h | h
  · subst h
    exact ⟨fun k => ⟨fun hc => TransportEvent.noConfusion hc,
      fun hc => TransportEvent.noConfusion hc⟩,
      fun op hc => TransportEvent.noConfusion hc⟩
  · rcases List.mem_cons.mp h with h' | h'
    · subst h'
      exact ⟨fun k => ⟨fun hc => TransportEvent.noConfusion hc,
        fun hc => TransportEvent.noConfusion hc⟩,
        fun op hc => TransportEvent.noConfusion hc⟩
    · simp at h'

/-- The keys an update writes: the payload's nested upsert keys, then the
parent composite key. -/
def writtenKeysUpdate (s : Schema) (id : String) (d : RecordData) : List String :=
  (collectDataNestedWrites s.fields d).map Prod.fst ++ [getPrimaryKey s.name id]

/-! ## C7 — life-span resolution and application -/

theorem lookupS_some_mem {β : Type} :
    ∀ (l : List (String × β)) (k : String) (v : β),
      lookupS k l = some v → (k, v) ∈ l := by
  intro l
  induction l with
  | nil => intro k v h; simp [lookupS] at h
  | cons p l ih =>
    intro k v h
    obtain ⟨n, w⟩ := p
    by_cases he : n = k
    · subst he
      have hw : w = v := by
        have h2 := h
        simp only [lookupS, if_pos rfl] at h2
        exact Option.some.inj h2
      subst hw
      exact List.mem_cons_self _ _
    · simp only [lookupS, if_neg he] at h
      exact List.mem_cons_of_mem _ (ih k v h)

theorem insertOne_inv (s : Schema) (r : RecordData) (lifeSpanArg : Option Nat)
    (σ σ' : KVStore) (h : insertOne s r lifeSpanArg σ = some σ') :
    ∃ flat pk, serializeFields s.fields r = some flat ∧ recordPk s r = some pk ∧
      σ' = writeAll (collectNestedWrites s.fields r ++ [(getPrimaryKey s.name pk, flat)])
        (resolveLifeSpan lifeSpanArg s.defaultLifeSpan) σ := by
  rcases hser : serializeFields s.fields r with _ | flat <;>
    rcases hpk : recordPk s r with _ | pk <;>
      simp [insertOne, hser, hpk] at h
  exact ⟨flat, pk, rfl, rfl, h.symm⟩

theorem getLifeSpan_writeAll_or (ws : List (String × List (String × String)))
    (ttl : Option Nat) (σ : KVStore) (k : String) :
    getLifeSpan k (writeAll ws ttl σ) = getLifeSpan k σ ∨
      getLifeSpan k (writeAll ws ttl σ) = some ttl := by
  rw [writeAll_eq]
  rcases hl : lookupS k ((ws.map (fun w => (w.1, (w.2, ttl)))).reverse) with _ | v
  · left
    rw [getLifeSpan, lookupS_append, hl, getLifeSpan]
  · right
    have hmem := lookupS_some_mem _ k v hl
    rw [List.mem_reverse] at hmem
    obtain ⟨w, _, hw⟩ := List.mem_map.mp hmem
    have hv : v.2 = ttl := by
      have h2 := congrArg Prod.snd hw
      simp only at h2
      rw [← h2]
    rw [getLifeSpan, lookupS_append, hl]
    simp [← hv]

/-- The keys written by a batch insert. -/
def writtenKeysInsertMany (s : Schema) : List RecordData → List String
  | [] => []
  | r :: rest => writtenKeysInsert s r ++ writtenKeysInsertMany s rest

theorem getLifeSpan_insertOne_pres (s : Schema) (r : RecordData)
    (lifeSpanArg : Option Nat) (σ σ' : KVStore) (k : String)
    (h : insertOne s r lifeSpanArg σ = some σ')
    (hk : getLifeSpan k σ = some (resolveLifeSpan lifeSpanArg s.defaultLifeSpan)) :
    getLifeSpan k σ' = some (resolveLifeSpan lifeSpanArg s.defaultLifeSpan) := by
  obtain ⟨flat, pk, _, _, hσ'⟩ := insertOne_inv s r lifeSpanArg σ σ' h
  subst hσ'
  rcases getLifeSpan_writeAll_or _ (resolveLifeSpan lifeSpanArg s.defaultLifeSpan) σ k with
    hc | hc
  · rw [hc, hk]
  · exact hc

theorem getLifeSpan_insertMany_pres (s : Schema) :
    ∀ (rs : List RecordData) (lifeSpanArg : Option Nat) (σ σ' : KVStore) (k : String),
      insertMany s rs lifeSpanArg σ = some σ' →
      getLifeSpan k σ = some (resolveLifeSpan lifeSpanArg s.defaultLifeSpan) →
      getLifeSpan k σ' = some (resolveLifeSpan lifeSpanArg s.defaultLifeSpan) := by
  intro rs
  induction rs with
  | nil =>
    intro lifeSpanArg σ σ' k h hk
    simp only [insertMany, Option.some.injEq] at h
    rw [← h]; exact hk
  | cons r rest ih =>
    intro lifeSpanArg σ σ' k h hk
    simp only [insertMany] at h
    rcases h1 : insertOne s r lifeSpanArg σ with _ | σ₁
    · rw [h1] at h; simp at h
    · rw [h1, Option.some_bind] at h
      exact ih lifeSpanArg σ₁ σ' k h
        (getLifeSpan_insertOne_pres s r lifeSpanArg σ σ₁ k h1 hk)

theorem getLifeSpan_insertOne_written (s : Schema) (r : RecordData)
    (lifeSpanArg : Option Nat) (σ σ' : KVStore)
    (hnd : (writtenKeysInsert s r).Nodup)
    (h : insertOne s r lifeSpanArg σ = some σ') :
    ∀ k ∈ writtenKeysInsert s r,
      getLifeSpan k σ' = some (resolveLifeSpan lifeSpanArg s.defaultLifeSpan) := by
  intro k hk
  obtain ⟨flat, pk, hser, hpk, hσ'⟩ := insertOne_inv s r lifeSpanArg σ σ' h
  subst hσ'
  have hws : ((collectNestedWrites s.fields r ++
      [(getPrimaryKey s.name pk, flat)]).map Prod.fst) = writtenKeysInsert s r := by
    simp [writtenKeysInsert, hpk]
  rw [← hws] at hk hnd
  obtain ⟨w, hwmem, hwk⟩ := List.mem_map.mp hk
  have : (k, w.2) ∈ collectNestedWrites s.fields r ++ [(getPrimaryKey s.name pk, flat)] := by
    have : w = (k, w.2) := by
      rw [← hwk]
    rw [← this]
    exact hwmem
  exact (getFlatMap_writeAll_of_mem _ _ σ k w.2 this hnd).2

/-- C7: for insert one, insert many, and update, the life span recorded on
every key the operation writes — nested sub-record keys included — is the
explicit per-call life-span argument when it is not None, otherwise the
collection/model default, otherwise no expiry: exactly
`resolveLifeSpan lifeSpanArg s.defaultLifeSpan` (the resolution chain of
`BaseModel.insert`/`BaseModel.update` in `src/orredis/abstract.py`). -/
theorem life_span_applied_to_all_writes (s : Schema) (lifeSpanArg : Option Nat) :
    (∀ σ r σ', (writtenKeysInsert s r).Nodup → insertOne s r lifeSpanArg σ = some σ' →
      ∀ k ∈ writtenKeysInsert s r,
        getLifeSpan k σ' = some (resolveLifeSpan lifeSpanArg s.defaultLifeSpan)) ∧
    (∀ σ rs σ', (∀ r ∈ rs, (writtenKeysInsert s r).Nodup) →
      insertMany s rs lifeSpanArg σ = some σ' →
      ∀ k ∈ writtenKeysInsertMany s rs,
        getLifeSpan k σ' = some (resolveLifeSpan lifeSpanArg s.defaultLifeSpan)) ∧
    (∀ σ id d σ', (writtenKeysUpdate s id d).Nodup →
      updateOne s id d lifeSpanArg σ = some σ' →
      ∀ k ∈ writtenKeysUpdate s id d,
        getLifeSpan k σ' = some (resolveLifeSpan lifeSpanArg s.defaultLifeSpan)) := by
  refine ⟨?_, ?_, ?_⟩
  · intro σ r σ' hnd h k hk
    exact getLifeSpan_insertOne_written s r lifeSpanArg σ σ' hnd h k hk
  · intro σ rs
    induction rs generalizing σ with
    | nil => intro σ' _ _ k hk; simp [writtenKeysInsertMany] at hk
    | cons r rest ih =>
      intro σ' hnds h k hk
      simp only [insertMany] at h
      rcases h1 : insertOne s r lifeSpanArg σ with _ | σ₁
      · rw [h1] at h; simp at h
      · rw [h1, Option.some_bind] at h
        rcases List.mem_append.mp hk with hkl | hkr
        · have hstep := getLifeSpan_insertOne_written s r lifeSpanArg σ σ₁
            (hnds r (List.mem_cons_self r rest)) h1 k hkl
          exact getLifeSpan_insertMany_pres s rest lifeSpanArg σ₁ σ' k h hstep
        · exact ih σ₁ σ' (fun r' hr' => hnds r' (List.mem_cons_of_mem r hr')) h k hkr
  · intro σ id d σ' hnd h k hk
    rcases hold : getFlatMap (getPrimaryKey s.name id) σ with _ | oldFlat
    · rw [updateOne, hold] at h; exact Option.noConfusion h
    · rw [updateOne, hold] at h
      rcases hdf : serializeDataFields s.fields d with _ | dataFlat
      · rw [hdf] at h; exact Option.noConfusion h
      · rw [hdf] at h
        simp only [Option.map_some'] at h
        have hws : ((collectDataNestedWrites s.fields d ++
            [(getPrimaryKey s.name id, mergeStrMap oldFlat dataFlat)]).map Prod.fst) =
            writtenKeysUpdate s id d := by
          simp [writtenKeysUpdate]
        rw [← hws] at hk hnd
        obtain ⟨w, hwmem, hwk⟩ := List.mem_map.mp hk
        have hmem2 : (k, w.2) ∈ collectDataNestedWrites s.fields d ++
            [(getPrimaryKey s.name id, mergeStrMap oldFlat dataFlat)] := by
          have hw : w = (k, w.2) := by rw [← hwk]
          rw [← hw]
          exact hwmem
        rw [← Option.some.inj h]
        exact (getFlatMap_writeAll_of_mem _ _ σ k w.2 hmem2 hnd).2

/-- Witness for C7: inserting the Book fixture with an explicit life span of
5 records that life span on the nested Author key and on the Book key. -/
theorem life_span_applied_to_all_writes_witness :
    ∃ σ', insertOne bookSchema oliverTwist (some 5) [] = some σ' ∧
      getLifeSpan (getPrimaryKey "Author" "Charles Dickens") σ' = some (some 5) ∧
      getLifeSpan (getPrimaryKey "Book" "Oliver Twist") σ' = some (some 5) := by
  have hins : insertOne bookSchema oliverTwist (some 5) [] =
      some ((insertOne bookSchema oliverTwist (some 5) []).getD []) := by decide
  refine ⟨_, hins, ?_, ?_⟩
  · exact (life_span_applied_to_all_writes bookSchema (some 5)).1 [] oliverTwist _
      (by decide) hins _ (by decide)
  · exact (life_span_applied_to_all_writes bookSchema (some 5)).1 [] oliverTwist _
      (by decide) hins _ (by decide)

/-! ## C9 — non-cascading delete -/

theorem lookupS_filter_kept {β : Type} (P : String × β → Bool) :
    ∀ (l : List (String × β)) (k : String),
      (∀ v, P (k, v) = true) → lookupS k (l.filter P) = lookupS k l := by
  intro l
  induction l with
  | nil => intro k _; rfl
  | cons e l ih =>
    intro k hP
    obtain ⟨n, w⟩ := e
    by_cases he : n = k
    · subst he
      rw [List.filter_cons_of_pos (hP w)]
      simp [lookupS]
    · rcases hPe : P (n, w) with _ | _
      · rw [List.filter_cons_of_neg (by simp [hPe])]
        rw [ih k hP, lookupS_cons_ne n k w l he]
      · rw [List.filter_cons_of_pos hPe]
        rw [lookupS_cons_ne n k w (l.filter P) he, lookupS_cons_ne n k w l he]
        exact ih k hP

theorem lookupS_filter_dropped {β : Type} (P : String × β → Bool) :
    ∀ (l : List (String × β)) (k : String),
      (∀ v, P (k, v) = false) → lookupS k (l.filter P) = Option.none := by
  intro l
  induction l with
  | nil => intro k _; rfl
  | cons e l ih =>
    intro k hP
    obtain ⟨n, w⟩ := e
    by_cases he : n = k
    · subst he
      rw [List.filter_cons_of_neg (by simp [hP w])]
      exact ih _ hP
    · rcases hPe : P (n, w) with _ | _
      · rw [List.filter_cons_of_neg (by simp [hPe])]
        exact ih k hP
      · rw [List.filter_cons_of_pos hPe, lookupS_cons_ne n k w (l.filter P) he]
        exact ih k hP

theorem deserializeRecFields_flat_indep :
    ∀ (fs : List (String × FieldType)) (m : List (String × String)) (σ₁ σ₂ : KVStore),
      (∀ p ∈ fs, ∃ ft, p.2 = FieldType.flat ft) →
      deserializeRecFields fs m σ₁ = deserializeRecFields fs m σ₂ := by
  intro fs
  induction fs with
  | nil => intro m σ₁ σ₂ _; rfl
  | cons f fs ih =>
    intro m σ₁ σ₂ hflat
    obtain ⟨n, t⟩ := f
    obtain ⟨ft, hft⟩ := hflat (n, t) (List.mem_cons_self _ _)
    simp only at hft
    subst hft
    simp only [deserializeRecFields, deserializeField,
      ih m σ₁ σ₂ (fun p hp => hflat p (List.mem_cons_of_mem _ hp))]

/-- C9: deleting parent records by a list of ids removes exactly the parent
composite keys: selecting any deleted parent afterwards finds nothing, while
a nested record stored in its own collection (whose composite key is not
among the deleted parent keys — e.g. because its collection name differs) is
untouched, and a subsequent select of the nested record by its own primary
key returns exactly what it returned before the delete — deletion never
cascades. -/
theorem delete_many_non_cascading (σ : KVStore) (s sn : Schema) (ids : List String)
    (pkA : String)
    (hflat : ∀ p ∈ sn.fields, ∃ ft, p.2 = FieldType.flat ft)
    (hkey : getPrimaryKey sn.name pkA ∉ ids.map (getPrimaryKey s.name)) :
    (∀ id ∈ ids, getFlatMap (getPrimaryKey s.name id) (deleteMany s ids σ) =
      Option.none) ∧
    selectOne sn pkA (deleteMany s ids σ) = selectOne sn pkA σ := by
  constructor
  · intro id hid
    rw [getFlatMap, deleteMany]
    rw [lookupS_filter_dropped _ σ (getPrimaryKey s.name id) (fun v => by
      have hany : ids.any
          (fun i => decide (getPrimaryKey s.name i = (getPrimaryKey s.name id, v).1)) =
          true :=
        List.any_eq_true.mpr ⟨id, hid, by simp⟩
      simp [hany])]
    rfl
  · have hlook : getFlatMap (getPrimaryKey sn.name pkA) (deleteMany s ids σ) =
        getFlatMap (getPrimaryKey sn.name pkA) σ := by
      rw [getFlatMap, getFlatMap, deleteMany]
      rw [lookupS_filter_kept _ σ (getPrimaryKey sn.name pkA) (fun v => by
        rcases hany : ids.any
            (fun i => decide (getPrimaryKey s.name i = (getPrimaryKey sn.name pkA, v).1))
            with _ | _
        · simp [hany]
        · exfalso
          obtain ⟨i, hi, hdec⟩ := List.any_eq_true.mp hany
          simp only [decide_eq_true_eq] at hdec
          exact hkey (by
            rw [← hdec]
            exact List.mem_map_of_mem _ hi))]
    rw [selectOne, selectOne, hlook]
    rcases hm : getFlatMap (getPrimaryKey sn.name pkA) σ with _ | m
    · rfl
    · simp only [Option.some_bind]
      exact deserializeRecFields_flat_indep sn.fields m _ σ hflat

/-- The `Author` model seen as a top-level collection schema (all fields
flat). -/
def authorSchemaFull : Schema :=
  ⟨"Author", "name", Option.none,
    [("name", .flat (.atomK .str)), ("active_years", .flat (.listK .int))]⟩

/-- Witness for C9: after inserting the Book fixture (which upserts its
Author), deleting the Book by title leaves the Author record selectable by
its own primary key, unchanged, while the Book key is gone. -/
theorem delete_many_non_cascading_witness :
    ∃ σ', insertOne bookSchema oliverTwist Option.none [] = some σ' ∧
      ("Oliver Twist" ∈ (["Oliver Twist"] : List String) →
        getFlatMap (getPrimaryKey "Book" "Oliver Twist")
          (deleteMany bookSchema ["Oliver Twist"] σ') = Option.none) ∧
      selectOne authorSchemaFull "Charles Dickens"
          (deleteMany bookSchema ["Oliver Twist"] σ') =
        selectOne authorSchemaFull "Charles Dickens" σ' ∧
      selectOne authorSchemaFull "Charles Dickens" σ' =
        some [("name", Value.flat (.atom (.str "Charles Dickens"))),
          ("active_years", Value.flat (.list [.int 1220, .int 1280]))] := by
  have hins : insertOne bookSchema oliverTwist Option.none [] =
      some ((insertOne bookSchema oliverTwist Option.none []).getD []) := by decide
  have hmain := delete_many_non_cascading
    ((insertOne bookSchema oliverTwist Option.none []).getD []) bookSchema
    authorSchemaFull ["Oliver Twist"] "Charles Dickens"
    (by
      intro p hp
      rcases List.mem_cons.mp hp with h | h
      · exact ⟨.atomK .str, by rw [h]⟩
      · rcases List.mem_cons.mp h with h' | h'
        · exact ⟨.listK .int, by rw [h']⟩
        · simp at h')
    (by decide)
  refine ⟨_, hins, fun _ => hmain.1 "Oliver Twist" (by decide), hmain.2, by decide⟩

/-! ## C3 — update is read-modify-write -/

/-- `R` with exactly the supplied fields replaced: each field of `r` keeps
its value unless `d` supplies that field name. -/
def mergeRecord (r d : RecordData) : RecordData :=
  r.map (fun p =>
    match lookupS p.1 d with
    | some v => (p.1, v)
    | Option.none => p)

/-- Every supplied update field exists on the schema and inhabits its
declared type. -/
def dataWellTyped (fs : List (String × FieldType)) : RecordData → Bool
  | [] => true
  | (n, v) :: rest =>
    (match lookupS n fs with
     | some t => valueTypeMatches t v
     | Option.none => false) && dataWellTyped fs rest

theorem lookupS_mergeRecord (d : RecordData) :
    ∀ (r : RecordData) (n : String),
      lookupS n (mergeRecord r d) =
        match lookupS n r with
        | some v =>
          (match lookupS n d with
           | some w => some w
           | Option.none => some v)
        | Option.none => Option.none := by
  intro r
  induction r with
  | nil => intro n; rfl
  | cons p r' ih =>
    intro n
    obtain ⟨m, v⟩ := p
    by_cases he : m = n
    · subst he
      rcases hd : lookupS m d with _ | w <;>
        simp [mergeRecord, lookupS, hd]
    · rcases hd : lookupS m d with _ | w <;>
        simp only [mergeRecord, List.map_cons, hd, lookupS, if_neg he] <;>
        · rw [← mergeRecord]
          exact ih n

theorem mem_names_lookupS {β : Type} :
    ∀ (l : List (String × β)) (n : String), n ∈ l.map Prod.fst →
      ∃ v, lookupS n l = some v := by
  intro l
  induction l with
  | nil => intro n h; simp at h
  | cons p l ih =>
    intro n h
    obtain ⟨m, w⟩ := p
    by_cases he : m = n
    · subst he
      exact ⟨w, by simp [lookupS]⟩
    · rw [List.map_cons] at h
      rcases List.mem_cons.mp h with h' | h'
      · exact absurd h'.symm he
      · obtain ⟨v, hv⟩ := ih n h'
        exact ⟨v, by rw [lookupS_cons_ne m n w l he]; exact hv⟩

theorem dataWellTyped_lookup (fs : List (String × FieldType)) :
    ∀ (d : RecordData), dataWellTyped fs d = true →
      ∀ n w, lookupS n d = some w →
        ∃ t, lookupS n fs = some t ∧ valueTypeMatches t w = true := by
  intro d
  induction d with
  | nil => intro _ n w h; simp [lookupS] at h
  | cons p d' ih =>
    intro hd n w h
    obtain ⟨m, v⟩ := p
    simp only [dataWellTyped, Bool.and_eq_true] at hd
    by_cases he : m = n
    · subst he
      have hv : v = w := by
        have h2 := h
        simp only [lookupS, if_pos rfl] at h2
        exact Option.some.inj h2
      subst hv
      rcases ht : lookupS m fs with _ | t
      · rw [ht] at hd; simp at hd
      · rw [ht] at hd
        exact ⟨t, rfl, hd.1⟩
    · rw [lookupS_cons_ne m n v d' he] at h
      exact ih hd.2 n w h

theorem serializeDataFields_exists (fs : List (String × FieldType)) :
    ∀ (d : RecordData), dataWellTyped fs d = true →
      ∃ df, serializeDataFields fs d = some df := by
  intro d
  induction d with
  | nil => intro _; exact ⟨[], rfl⟩
  | cons p d' ih =>
    intro hd
    obtain ⟨m, v⟩ := p
    simp only [dataWellTyped, Bool.and_eq_true] at hd
    rcases ht : lookupS m fs with _ | t
    · rw [ht] at hd; simp at hd
    · rw [ht] at hd
      obtain ⟨s, hs⟩ := serializeField_ok t v hd.1
      obtain ⟨df', hdf'⟩ := ih hd.2
      exact ⟨(m, s) :: df', by simp [serializeDataFields, ht, hs, hdf']⟩

theorem serializeDataFields_lookup (fs : List (String × FieldType)) :
    ∀ (d : RecordData) (df : List (String × String)),
      serializeDataFields fs d = some df →
      ∀ n, (lookupS n d = Option.none → lookupS n df = Option.none) ∧
        (∀ w, lookupS n d = some w →
          ∃ t s, lookupS n fs = some t ∧ serializeField t w = some s ∧
            lookupS n df = some s) := by
  intro d
  induction d with
  | nil =>
    intro df h n
    simp only [serializeDataFields, Option.some.injEq] at h
    subst h
    exact ⟨fun _ => rfl, fun w hw => by simp [lookupS] at hw⟩
  | cons p d' ih =>
    intro df h n
    obtain ⟨m, v⟩ := p
    rcases ht : lookupS m fs with _ | t
    · rw [serializeDataFields, ht] at h; simp at h
    · rw [serializeDataFields, ht, Option.some_bind] at h
      rcases hs : serializeField t v with _ | s
      · rw [hs] at h; simp at h
      · rw [hs, Option.some_bind] at h
        rcases hrec : serializeDataFields fs d' with _ | df'
        · rw [hrec] at h; simp at h
        · rw [hrec] at h
          simp only [Option.map_some', Option.some.injEq] at h
          subst h
          by_cases he : m = n
          · subst he
            constructor
            · intro hnone
              simp [lookupS] at hnone
            · intro w hw
              have hv : v = w := by
                have h2 := hw
                simp only [lookupS, if_pos rfl] at h2
                exact Option.some.inj h2
              subst hv
              exact ⟨t, s, ht, hs, by simp [lookupS]⟩
          · constructor
            · intro hnone
              rw [lookupS_cons_ne m n v d' he] at hnone
              rw [lookupS_cons_ne m n s df' he]
              exact (ih df' hrec n).1 hnone
            · intro w hw
              rw [lookupS_cons_ne m n v d' he] at hw
              obtain ⟨t', s', ht', hs', hlook⟩ := (ih df' hrec n).2 w hw
              exact ⟨t', s', ht', hs', by
                rw [lookupS_cons_ne m n s df' he]; exact hlook⟩

theorem lookupS_not_mem_names {β : Type} :
    ∀ (l : List (String × β)) (k : String), k ∉ l.map Prod.fst →
      lookupS k l = Option.none := by
  intro l
  induction l with
  | nil => intro k _; rfl
  | cons p l ih =>
    intro k h
    obtain ⟨m, w⟩ := p
    have he : m ≠ k := fun hc => h (by simp [hc])
    rw [lookupS_cons_ne m k w l he]
    exact ih k (fun hc => h (by simp [hc]))

theorem getFlatMap_writeAll_not_mem (ws : List (String × List (String × String)))
    (ttl : Option Nat) (σ : KVStore) (k : String) (h : k ∉ ws.map Prod.fst) :
    getFlatMap k (writeAll ws ttl σ) = getFlatMap k σ := by
  rw [writeAll_eq, getFlatMap, lookupS_append]
  rw [lookupS_not_mem_names _ k (by
    rw [List.map_reverse, List.map_map]
    intro hc
    rw [List.mem_reverse] at hc
    exact h (by simpa using hc))]
  rfl

theorem alignedRec_merge (d : RecordData) :
    ∀ (fs : List (String × FieldType)) (r : RecordData),
      alignedRec fs r = true → (fs.map Prod.fst).Nodup →
      (∀ n w, lookupS n d = some w → ∀ t, lookupS n fs = some t →
        valueTypeMatches t w = true) →
      alignedRec fs (mergeRecord r d) = true := by
  intro fs
  induction fs with
  | nil =>
    intro r hal _ _
    cases r with
    | nil => rfl
    | cons p rs => simp [alignedRec] at hal
  | cons f fs ih =>
    intro r hal hnd hty
    obtain ⟨n, t⟩ := f
    cases r with
    | nil => simp [alignedRec] at hal
    | cons p rs =>
      obtain ⟨m, v⟩ := p
      simp only [alignedRec, Bool.and_eq_true, decide_eq_true_eq] at hal
      obtain ⟨⟨hm, htv⟩, hal'⟩ := hal
      subst hm
      rw [List.map_cons] at hnd
      have hp := List.nodup_cons.mp hnd
      have hty' : ∀ n' w, lookupS n' d = some w → ∀ t', lookupS n' fs = some t' →
          valueTypeMatches t' w = true := by
        intro n' w hw t' ht'
        have hne : n ≠ n' := fun hc => hp.1 (hc ▸ lookupS_mem_names fs n' _ ht')
        exact hty n' w hw t' (by rw [lookupS_cons_ne n n' t fs hne]; exact ht')
      have hmerge : mergeRecord ((n, v) :: rs) d =
          (match lookupS n d with
           | some w => (n, w)
           | Option.none => (n, v)) :: mergeRecord rs d := by
        rcases hd : lookupS n d with _ | w <;> simp [mergeRecord, hd]
      rw [hmerge]
      rcases hd : lookupS n d with _ | w
      · simp only [alignedRec, Bool.and_eq_true, decide_eq_true_eq]
        exact ⟨⟨trivial, htv⟩, ih rs hal' hp.2 hty'⟩
      · simp only [alignedRec, Bool.and_eq_true, decide_eq_true_eq]
        refine ⟨⟨trivial, ?_⟩, ih rs hal' hp.2 hty'⟩
        exact hty n w hd t (by simp [lookupS])

theorem serializeFields_merge (d : RecordData) (dataFlat : List (String × String)) :
    ∀ (fs : List (String × FieldType)) (r : RecordData) (flatR : List (String × String)),
      alignedRec fs r = true → (fs.map Prod.fst).Nodup →
      serializeFields fs r = some flatR →
      (∀ n, lookupS n d = Option.none → lookupS n dataFlat = Option.none) →
      (∀ n w, lookupS n d = some w → ∀ t, lookupS n fs = some t →
        ∃ s, serializeField t w = some s ∧ lookupS n dataFlat = some s) →
      serializeFields fs (mergeRecord r d) = some (mergeStrMap flatR dataFlat) := by
  intro fs
  induction fs with
  | nil =>
    intro r flatR hal _ hser _ _
    cases r with
    | nil =>
      simp only [serializeFields, Option.some.injEq] at hser
      subst hser
      rfl
    | cons p rs => simp [alignedRec] at hal
  | cons f fs ih =>
    intro r flatR hal hnd hser hdf0 hdf
    obtain ⟨n, t⟩ := f
    cases r with
    | nil => simp [alignedRec] at hal
    | cons p rs =>
      obtain ⟨m, v⟩ := p
      simp only [alignedRec, Bool.and_eq_true, decide_eq_true_eq] at hal
      obtain ⟨⟨hm, htv⟩, hal'⟩ := hal
      subst hm
      rw [List.map_cons] at hnd
      have hp := List.nodup_cons.mp hnd
      -- invert the serialization of the head and tail
      rw [serializeFields, show lookupS n ((n, v) :: rs) = some v from by simp [lookupS],
        Option.some_bind, serializeFields_skip fs n v rs hp.1] at hser
      rcases hsv : serializeField t v with _ | sv
      · rw [hsv] at hser; simp at hser
      · rw [hsv, Option.some_bind] at hser
        rcases htail : serializeFields fs rs with _ | flatTail
        · rw [htail] at hser; simp at hser
        · rw [htail] at hser
          simp only [Option.map_some', Option.some.injEq] at hser
          subst hser
          have hdf0' := hdf0
          have hdf' : ∀ n' w, lookupS n' d = some w → ∀ t', lookupS n' fs = some t' →
              ∃ s, serializeField t' w = some s ∧ lookupS n' dataFlat = some s := by
            intro n' w hw t' ht'
            have hne : n ≠ n' := fun hc => hp.1 (hc ▸ lookupS_mem_names fs n' _ ht')
            exact hdf n' w hw t' (by rw [lookupS_cons_ne n n' t fs hne]; exact ht')
          have hmerge : mergeRecord ((n, v) :: rs) d =
              (match lookupS n d with
               | some w => (n, w)
               | Option.none => (n, v)) :: mergeRecord rs d := by
            rcases hd : lookupS n d with _ | w <;> simp [mergeRecord, hd]
          have hmm : mergeStrMap ((n, sv) :: flatTail) dataFlat =
              (match lookupS n dataFlat with
               | some s => (n, s)
               | Option.none => (n, sv)) :: mergeStrMap flatTail dataFlat := by
            rcases hdl : lookupS n dataFlat with _ | s' <;> simp [mergeStrMap, hdl]
          rw [hmerge, hmm]
          rcases hd : lookupS n d with _ | w
          · have hdl : lookupS n dataFlat = Option.none := hdf0 n hd
            rw [hdl]
            simp only [serializeFields,
              show lookupS n ((n, v) :: mergeRecord rs d) = some v from by simp [lookupS],
              Option.some_bind, hsv, Option.some_bind]
            rw [serializeFields_skip fs n v (mergeRecord rs d) hp.1]
            rw [ih rs flatTail hal' hp.2 htail hdf0' hdf']
            rfl
          · obtain ⟨s, hserf, hdl⟩ := hdf n w hd t (by simp [lookupS])
            rw [hdl]
            simp only [serializeFields,
              show lookupS n ((n, w) :: mergeRecord rs d) = some w from by simp [lookupS],
              Option.some_bind, hserf, Option.some_bind]
            rw [serializeFields_skip fs n w (mergeRecord rs d) hp.1]
            rw [ih rs flatTail hal' hp.2 htail hdf0' hdf']
            rfl

theorem mem_collectDataNestedWrites (fs : List (String × FieldType)) :
    ∀ (d : RecordData) (n : String) (ns : FlatSchema) (q : List (String × FlatValue))
      (pk : String),
      lookupS n fs = some (FieldType.nested ns) → lookupS n d = some (Value.nested q) →
      nestedPk ns q = some pk →
      (getPrimaryKey ns.name pk, serializeFlatRecord q) ∈ collectDataNestedWrites fs d := by
  intro d
  induction d with
  | nil => intro n ns q pk _ h2 _; simp [lookupS] at h2
  | cons p d' ih =>
    intro n ns q pk h1 h2 h3
    obtain ⟨m, v⟩ := p
    by_cases he : m = n
    · subst he
      have hv : v = Value.nested q := by
        have h4 := h2
        simp only [lookupS, if_pos rfl] at h4
        exact Option.some.inj h4
      subst hv
      simp only [collectDataNestedWrites, h1, nestedWritesOf, h3, List.mem_append]
      exact Or.inl (List.mem_singleton.mpr rfl)
    · rw [lookupS_cons_ne m n v d' he] at h2
      simp only [collectDataNestedWrites, List.mem_append]
      exact Or.inr (ih n ns q pk h1 h2 h3)

/-- C3: update is read-modify-write, never a blind overwrite.  For a stored
record `R` (stored flat form `flatR`, with its nested sub-records available
in their collections) and an update payload `d` touching a subset of `R`'s
fields, the record read back under the same composite key afterwards equals
`R` with exactly the supplied fields replaced (`mergeRecord R d`, up to
storage normalization); the final two conjuncts state the frame property of
`mergeRecord` itself: a field the payload does not supply keeps its
previously stored value, and a supplied field carries the supplied value. -/
theorem update_preserves_untouched (σ : KVStore) (s : Schema) (id : String)
    (r d : RecordData) (flatR : List (String × String)) (lifeSpanArg : Option Nat)
    (hwt : wellTypedRec s r)
    (hser : serializeFields s.fields r = some flatR)
    (hstored : getFlatMap (getPrimaryKey s.name id) σ = some flatR)
    (hd : dataWellTyped s.fields d = true)
    (hkeys : (writtenKeysUpdate s id d).Nodup)
    (hav : ∀ p ∈ s.fields, ∀ ns q pk', p.2 = FieldType.nested ns →
      lookupS p.1 r = some (Value.nested q) → lookupS p.1 d = Option.none →
      nestedPk ns q = some pk' →
      getFlatMap (getPrimaryKey ns.name pk') σ = some (serializeFlatRecord q) ∧
        getPrimaryKey ns.name pk' ∉ writtenKeysUpdate s id d) :
    ∃ σ', updateOne s id d lifeSpanArg σ = some σ' ∧
      selectOne s id σ' = some (normalizeRecord (mergeRecord r d)) ∧
      (∀ n, lookupS n d = Option.none → lookupS n (mergeRecord r d) = lookupS n r) ∧
      (∀ n w, lookupS n d = some w → n ∈ r.map Prod.fst →
        lookupS n (mergeRecord r d) = some w) := by
  obtain ⟨hal, hnd⟩ := hwt
  obtain ⟨dataFlat, hdf⟩ := serializeDataFields_exists s.fields d hd
  refine ⟨writeAll (collectDataNestedWrites s.fields d ++
      [(getPrimaryKey s.name id, mergeStrMap flatR dataFlat)])
      (resolveLifeSpan lifeSpanArg s.defaultLifeSpan) σ, ?_, ?_, ?_, ?_⟩
  · simp [updateOne, hstored, hdf]
  · have hws_keys : ((collectDataNestedWrites s.fields d ++
        [(getPrimaryKey s.name id, mergeStrMap flatR dataFlat)]).map Prod.fst) =
        writtenKeysUpdate s id d := by
      simp [writtenKeysUpdate]
    have hndws := hws_keys ▸ hkeys
    -- the merged record is aligned with the schema
    have htyd : ∀ n w, lookupS n d = some w → ∀ t, lookupS n s.fields = some t →
        valueTypeMatches t w = true := by
      intro n w hw t ht
      obtain ⟨t', ht', hty'⟩ := dataWellTyped_lookup s.fields d hd n w hw
      rw [ht] at ht'
      rw [Option.some.inj ht']
      exact hty'
    have halM := alignedRec_merge d s.fields r hal hnd htyd
    -- nested sub-records of the merged record are available in the
    -- post-update store
    have havM : ∀ n ns q pk', lookupS n s.fields = some (FieldType.nested ns) →
        lookupS n (mergeRecord r d) = some (Value.nested q) →
        nestedPk ns q = some pk' →
        getFlatMap (getPrimaryKey ns.name pk')
          (writeAll (collectDataNestedWrites s.fields d ++
            [(getPrimaryKey s.name id, mergeStrMap flatR dataFlat)])
            (resolveLifeSpan lifeSpanArg s.defaultLifeSpan) σ) =
          some (serializeFlatRecord q) := by
      intro n ns q pk' h1 h2 h3
      rw [lookupS_mergeRecord d r n] at h2
      rcases hr : lookupS n r with _ | v
      · rw [hr] at h2; exact Option.noConfusion h2
      · rw [hr] at h2
        rcases hdn : lookupS n d with _ | w
        · rw [hdn] at h2
          have hv : v = Value.nested q := Option.some.inj h2
          subst hv
          have hpmem := lookupS_some_mem s.fields n _ h1
          obtain ⟨hold, hnot⟩ := hav (n, FieldType.nested ns) hpmem ns q pk' rfl hr hdn h3
          rw [getFlatMap_writeAll_not_mem _ _ σ _ (by rw [hws_keys]; exact hnot)]
          exact hold
        · rw [hdn] at h2
          have hw : w = Value.nested q := Option.some.inj h2
          subst hw
          have hmem := mem_collectDataNestedWrites s.fields d n ns q pk' h1 hdn h3
          exact (getFlatMap_writeAll_of_mem _ _ σ _ _
            (List.mem_append_left _ hmem) hndws).1
    obtain ⟨flatM, hserM, hdesM⟩ :=
      serializeFields_deserialize s.fields (mergeRecord r d) _ halM hnd havM
    have hserM2 := serializeFields_merge d dataFlat s.fields r flatR hal hnd hser
      (fun n hn => (serializeDataFields_lookup s.fields d dataFlat hdf n).1 hn)
      (fun n w hw t ht => by
        obtain ⟨t', s', ht', hs', hlook⟩ :=
          (serializeDataFields_lookup s.fields d dataFlat hdf n).2 w hw
        rw [ht] at ht'
        exact ⟨s', by rw [Option.some.inj ht']; exact hs', hlook⟩)
    have hfe : flatM = mergeStrMap flatR dataFlat := by
      rw [hserM2] at hserM
      exact (Option.some.inj hserM).symm
    subst hfe
    have hK := (getFlatMap_writeAll_of_mem
      (collectDataNestedWrites s.fields d ++
        [(getPrimaryKey s.name id, mergeStrMap flatR dataFlat)])
      (resolveLifeSpan lifeSpanArg s.defaultLifeSpan) σ (getPrimaryKey s.name id)
      (mergeStrMap flatR dataFlat)
      (List.mem_append_right _ (List.mem_singleton.mpr rfl)) hndws).1
    rw [selectOne, hK, Option.some_bind, hdesM]
  · intro n hn
    rw [lookupS_mergeRecord d r n]
    rcases hr : lookupS n r with _ | v
    · rfl
    · rw [hn]
  · intro n w hw hmem
    obtain ⟨v, hv⟩ := mem_names_lookupS r n hmem
    rw [lookupS_mergeRecord d r n, hv, hw]

/-- `Author(name="John Doe", active_years=(2000, 2009))` — the replacement
author of `test_update_one`. -/
def johnRec : List (String × FlatValue) :=
  [("name", .atom (.str "John Doe")),
   ("active_years", .list [.int 2000, .int 2009])]

/-- The update payload of `test_update_one`:
`{"author": john_doe, "in_stock": not book.in_stock}`. -/
def updatePayload : RecordData :=
  [("author", .nested johnRec), ("in_stock", .flat (.atom (.bool true)))]

/-- Witness for C3: insert the Book fixture, update only `author` and
`in_stock`; the read-back equals the merged record, `in_stock` carries the
new value and the untouched `published_on` keeps its stored value. -/
theorem update_preserves_untouched_witness :
    ∃ σ₀, insertOne bookSchema oliverTwist Option.none [] = some σ₀ ∧
    ∃ σ', updateOne bookSchema "Oliver Twist" updatePayload Option.none σ₀ = some σ' ∧
      selectOne bookSchema "Oliver Twist" σ' =
        some (normalizeRecord (mergeRecord oliverTwist updatePayload)) ∧
      lookupS "published_on" (mergeRecord oliverTwist updatePayload) =
        lookupS "published_on" oliverTwist ∧
      lookupS "in_stock" (mergeRecord oliverTwist updatePayload) =
        some (Value.flat (.atom (.bool true))) := by
  have hins : insertOne bookSchema oliverTwist Option.none [] =
      some ((insertOne bookSchema oliverTwist Option.none []).getD []) := by decide
  have hmain := update_preserves_untouched
    ((insertOne bookSchema oliverTwist Option.none []).getD []) bookSchema
    "Oliver Twist" oliverTwist updatePayload
    ((serializeFields bookSchema.fields oliverTwist).getD []) Option.none
    ⟨by decide, by decide⟩ (by decide) (by decide) (by decide) (by decide)
    (by
      intro p hp ns q pk' hpns hlookr hlookd hpk
      fin_cases hp <;>
        first
          | exact FieldType.noConfusion hpns
          | exact absurd hlookd (by decide))
  obtain ⟨σ', hupd, hsel, hframe, htouch⟩ := hmain
  exact ⟨_, hins, σ', hupd, hsel, hframe "published_on" (by decide),
    htouch "in_stock" _ (by decide) (by decide)⟩

/-! ## C5 — partial projection

Partial selects live in the compiled extension.  §4.3's partial mode returns
an untyped field→value mapping containing exactly the requested fields.  For
a requested nested-model field, §4.3's words say the field "resolves to the
nested collection's key, not a recursively-fetched instance"; the
repository's own tests (`src/test/test_orredis.py::test_get_one_partially`,
`test_get_all_partially`, `test_get_many_partially`) instead require the
returned `author` entry to compare equal to the full `Author` record, which
a bare key string cannot.  Both resolutions are defined below —
`selectOnePartial` follows the tests (fetch the referenced record, as full
mode does), `selectOnePartialKeyOnly` follows §4.3's words — and the
counterexample shows they disagree, with only the former matching the
tests' expectation. -/

/-- Modelled from the spec and the repository's tests: deserialize the
requested fields (only those) out of the stored mapping; nested fields are
resolved by fetching the referenced sub-record, exactly as in full mode. -/
def selPartialFields (schemaFields : List (String × FieldType)) :
    List String → List (String × String) → KVStore → Option RecordData
  | [], _, _ => some []
  | f :: rest, m, σ =>
    (lookupS f schemaFields).bind fun t =>
      (lookupS f m).bind fun str =>
        (deserializeField t str σ).bind fun v =>
          (selPartialFields schemaFields rest m σ).map fun tail => (f, v) :: tail

/-- `select one partial` (§4.5) with the tests' nested resolution. -/
def selectOnePartial (s : Schema) (fields : List String) (id : String) (σ : KVStore) :
    Option RecordData :=
  (getFlatMap (getPrimaryKey s.name id) σ).bind fun m =>
    selPartialFields s.fields fields m σ

/-- Modelled from the spec's words (§4.3 partial mode): a nested-model field
resolves to the nested collection's key, with no fetch. -/
def deserializeFieldKeyOnly (t : FieldType) (str : String) : Option Value :=
  match t with
  | .flat ft => (decFlatValue ft str.data).map Value.flat
  | .nested ns => some (Value.flat (.atom (.str (getPrimaryKey ns.name str))))

/-- Partial projection following the spec's words for nested fields. -/
def selPartialFieldsKeyOnly (schemaFields : List (String × FieldType)) :
    List String → List (String × String) → Option RecordData
  | [], _ => some []
  | f :: rest, m =>
    (lookupS f schemaFields).bind fun t =>
      (lookupS f m).bind fun str =>
        (deserializeFieldKeyOnly t str).bind fun v =>
          (selPartialFieldsKeyOnly schemaFields rest m).map fun tail => (f, v) :: tail

/-- `select one partial` following the spec's words for nested fields. -/
def selectOnePartialKeyOnly (s : Schema) (fields : List String) (id : String)
    (σ : KVStore) : Option RecordData :=
  (getFlatMap (getPrimaryKey s.name id) σ).bind fun m =>
    selPartialFieldsKeyOnly s.fields fields m

/-- Counterexample to C5 as stated: on the inserted Book fixture and the
request `["title", "author", "in_stock"]` of `test_get_one_partially`, the
key-only resolution of the spec's words gives `author` the composite key
string, while the resolution the repository's tests demand gives the full
Author record; the two provably differ, and the key string is not
storage-equal to the Author record, so the tests' assertion
`expected == response` (with `expected["author"]` the Author) rules the
key-only reading out. -/
theorem select_partial_nested_counterexample :
    (insertOne bookSchema oliverTwist Option.none []).bind
        (fun σ' =>
          selectOnePartial bookSchema ["title", "author", "in_stock"]
            "Oliver Twist" σ') =
      some [("title", Value.flat (.atom (.str "Oliver Twist"))),
        ("author", Value.nested charlesRec),
        ("in_stock", Value.flat (.atom (.bool false)))] ∧
    (insertOne bookSchema oliverTwist Option.none []).bind
        (fun σ' =>
          selectOnePartialKeyOnly bookSchema ["title", "author", "in_stock"]
            "Oliver Twist" σ') =
      some [("title", Value.flat (.atom (.str "Oliver Twist"))),
        ("author", Value.flat (.atom (.str "author_%&_Charles Dickens"))),
        ("in_stock", Value.flat (.atom (.bool false)))] ∧
    Value.nested charlesRec ≠
      Value.flat (.atom (.str "author_%&_Charles Dickens")) ∧
    storageEqValue (Value.nested charlesRec) (Value.nested charlesRec) = true ∧
    storageEqValue (Value.nested charlesRec)
      (Value.flat (.atom (.str "author_%&_Charles Dickens"))) = false := by
  refine ⟨by decide, by decide, by decide, by decide, by decide⟩

theorem alignedRec_lookup (fs : List (String × FieldType)) :
    ∀ (r : RecordData), alignedRec fs r = true →
      ∀ n t, lookupS n fs = some t →
        ∃ v, lookupS n r = some v ∧ valueTypeMatches t v = true := by
  intro r
  induction fs generalizing r with
  | nil => intro _ n t ht; simp [lookupS] at ht
  | cons f fs ih =>
    intro hal n t ht
    obtain ⟨m, t₀⟩ := f
    cases r with
    | nil => simp [alignedRec] at hal
    | cons p rs =>
      obtain ⟨m', v₀⟩ := p
      simp only [alignedRec, Bool.and_eq_true, decide_eq_true_eq] at hal
      obtain ⟨⟨hm, htv⟩, hal'⟩ := hal
      subst hm
      by_cases he : m = n
      · subst he
        have ht0 : t₀ = t := by
          have h2 := ht
          simp only [lookupS, if_pos rfl] at h2
          exact Option.some.inj h2
        subst ht0
        exact ⟨v₀, by simp [lookupS], htv⟩
      · rw [lookupS_cons_ne m n t₀ fs he] at ht
        obtain ⟨v, hv, hvt⟩ := ih rs hal' n t ht
        exact ⟨v, by rw [lookupS_cons_ne m n v₀ rs he]; exact hv, hvt⟩

theorem serializeFields_lookup (fs : List (String × FieldType)) :
    ∀ (r : RecordData) (flat : List (String × String)),
      alignedRec fs r = true → (fs.map Prod.fst).Nodup →
      serializeFields fs r = some flat →
      ∀ n t v, lookupS n fs = some t → lookupS n r = some v →
        ∃ s, serializeField t v = some s ∧ lookupS n flat = some s := by
  intro r flat
  induction fs generalizing r flat with
  | nil => intro _ _ _ n t v ht _; simp [lookupS] at ht
  | cons f fs ih =>
    intro hal hnd hser n t v ht hv
    obtain ⟨m, t₀⟩ := f
    cases r with
    | nil => simp [alignedRec] at hal
    | cons p rs =>
      obtain ⟨m', v₀⟩ := p
      simp only [alignedRec, Bool.and_eq_true, decide_eq_true_eq] at hal
      obtain ⟨⟨hm, htv⟩, hal'⟩ := hal
      subst hm
      rw [List.map_cons] at hnd
      have hp := List.nodup_cons.mp hnd
      rw [serializeFields, show lookupS m ((m, v₀) :: rs) = some v₀ from by simp [lookupS],
        Option.some_bind, serializeFields_skip fs m v₀ rs hp.1] at hser
      rcases hsv : serializeField t₀ v₀ with _ | sv
      · rw [hsv] at hser; simp at hser
      · rw [hsv, Option.some_bind] at hser
        rcases htail : serializeFields fs rs with _ | flatTail
        · rw [htail] at hser; simp at hser
        · rw [htail] at hser
          simp only [Option.map_some', Option.some.injEq] at hser
          subst hser
          by_cases he : m = n
          · subst he
            have ht0 : t₀ = t := by
              have h2 := ht
              simp only [lookupS, if_pos rfl] at h2
              exact Option.some.inj h2
            have hv0 : v₀ = v := by
              have h2 := hv
              simp only [lookupS, if_pos rfl] at h2
              exact Option.some.inj h2
            subst ht0; subst hv0
            exact ⟨sv, hsv, by simp [lookupS]⟩
          · rw [lookupS_cons_ne m n t₀ fs he] at ht
            rw [lookupS_cons_ne m n v₀ rs he] at hv
            obtain ⟨s, hs, hlook⟩ := ih rs flatTail hal' hp.2 htail n t v ht hv
            exact ⟨s, hs, by rw [lookupS_cons_ne m n sv flatTail he]; exact hlook⟩

theorem selPartialFields_correct (fs : List (String × FieldType)) (r : RecordData)
    (flat : List (String × String)) (σ : KVStore)
    (hal : alignedRec fs r = true) (hnd : (fs.map Prod.fst).Nodup)
    (hser : serializeFields fs r = some flat)
    (hav : ∀ n ns q pk', lookupS n fs = some (FieldType.nested ns) →
      lookupS n r = some (Value.nested q) → nestedPk ns q = some pk' →
      getFlatMap (getPrimaryKey ns.name pk') σ = some (serializeFlatRecord q)) :
    ∀ (F : List String), (∀ f ∈ F, f ∈ fs.map Prod.fst) →
      ∃ out, selPartialFields fs F flat σ = some out ∧
        out.map Prod.fst = F ∧
        (∀ f ∈ F, ∀ v, lookupS f r = some v →
          lookupS f out = some (normalizeValue v)) := by
  intro F
  induction F with
  | nil => intro _; exact ⟨[], rfl, rfl, fun f hf => by simp at hf⟩
  | cons f rest ih =>
    intro hF
    obtain ⟨t, ht⟩ := mem_names_lookupS fs f (hF f (List.mem_cons_self f rest))
    obtain ⟨v, hv, htv⟩ := alignedRec_lookup fs r hal f t ht
    obtain ⟨s, hs, hlook⟩ := serializeFields_lookup fs r flat hal hnd hser f t v ht hv
    have hfield : deserializeField t s σ = some (normalizeValue v) := by
      refine deserializeField_roundtrip t v s σ htv hs ?_
      intro ns q pk' h1 h2 h3
      subst h1; subst h2
      exact hav f ns q pk' ht hv h3
    obtain ⟨tail, hrec, hnames, hvals⟩ :=
      ih (fun g hg => hF g (List.mem_cons_of_mem f hg))
    refine ⟨(f, normalizeValue v) :: tail, ?_, ?_, ?_⟩
    · simp [selPartialFields, ht, hlook, hfield, hrec]
    · simp [hnames]
    · intro g hg w hw
      by_cases he : f = g
      · subst he
        have hvw : v = w := by
          rw [hv] at hw
          exact Option.some.inj hw
        subst hvw
        simp [lookupS]
      · rw [lookupS_cons_ne f g (normalizeValue v) tail he]
        rcases List.mem_cons.mp hg with h' | h'
        · exact absurd h'.symm he
        · exact hvals g h' w hw

/-- C5 (amended): for a requested field subset `F` of the model's declared
fields, each partial-select result is an untyped field→value mapping whose
keys are exactly `F` — every non-requested field omitted entirely — and each
requested field carries the record's stored (normalized) value; in
particular a nested-model field in `F` resolves to the fully fetched nested
record (the value the repository's tests compare equal to the sub-record
instance), not to the nested collection's key. -/
theorem select_partial_exact_fields (σ : KVStore) (s : Schema) (r : RecordData)
    (pk : String) (F : List String) (lifeSpanArg : Option Nat)
    (hwt : wellTypedRec s r) (hpk : recordPk s r = some pk)
    (hkeys : (writtenKeysInsert s r).Nodup)
    (hF : ∀ f ∈ F, f ∈ s.fields.map Prod.fst) :
    ∃ σ' out, insertOne s r lifeSpanArg σ = some σ' ∧
      selectOnePartial s F pk σ' = some out ∧
      out.map Prod.fst = F ∧
      (∀ f ∈ F, ∀ v, lookupS f r = some v →
        lookupS f out = some (normalizeValue v)) ∧
      (∀ g, g ∉ F → lookupS g out = Option.none) := by
  obtain ⟨hal, hnd⟩ := hwt
  obtain ⟨flat, hser⟩ := serializeFields_exists s.fields r hal hnd
  have hins : insertOne s r lifeSpanArg σ =
      some (writeAll (collectNestedWrites s.fields r ++
        [(getPrimaryKey s.name pk, flat)])
        (resolveLifeSpan lifeSpanArg s.defaultLifeSpan) σ) := by
    simp [insertOne, hser, hpk]
  have hws_keys : ((collectNestedWrites s.fields r ++
      [(getPrimaryKey s.name pk, flat)]).map Prod.fst) = writtenKeysInsert s r := by
    simp [writtenKeysInsert, hpk]
  have hndws := hws_keys ▸ hkeys
  have hav : ∀ n ns q pk', lookupS n s.fields = some (FieldType.nested ns) →
      lookupS n r = some (Value.nested q) → nestedPk ns q = some pk' →
      getFlatMap (getPrimaryKey ns.name pk')
        (writeAll (collectNestedWrites s.fields r ++ [(getPrimaryKey s.name pk, flat)])
          (resolveLifeSpan lifeSpanArg s.defaultLifeSpan) σ) =
        some (serializeFlatRecord q) := by
    intro n ns q pk' h1 h2 h3
    have hmem := mem_collectNestedWrites s.fields r n ns q pk' h1 h2 h3
    exact (getFlatMap_writeAll_of_mem _ _ σ _ _ (List.mem_append_left _ hmem) hndws).1
  obtain ⟨out, hsel, hnames, hvals⟩ :=
    selPartialFields_correct s.fields r flat _ hal hnd hser hav F hF
  have hK := (getFlatMap_writeAll_of_mem
    (collectNestedWrites s.fields r ++ [(getPrimaryKey s.name pk, flat)])
    (resolveLifeSpan lifeSpanArg s.defaultLifeSpan) σ (getPrimaryKey s.name pk) flat
    (List.mem_append_right _ (List.mem_singleton.mpr rfl)) hndws).1
  refine ⟨_, out, hins, ?_, hnames, hvals, ?_⟩
  · rw [selectOnePartial, hK, Option.some_bind]
    exact hsel
  · intro g hg
    exact lookupS_not_mem_names out g (by rw [hnames]; exact hg)

/-- Witness for the amended C5 at the fixture: requesting
`["title", "author", "in_stock"]` on the stored Book gives a mapping with
exactly those keys, the non-requested fields omitted, each value the stored
one. -/
theorem select_partial_exact_fields_witness :
    ∃ σ' out, insertOne bookSchema oliverTwist Option.none [] = some σ' ∧
      selectOnePartial bookSchema ["title", "author", "in_stock"]
        "Oliver Twist" σ' = some out ∧
      out.map Prod.fst = ["title", "author", "in_stock"] ∧
      (∀ f ∈ (["title", "author", "in_stock"] : List String), ∀ v,
        lookupS f oliverTwist = some v → lookupS f out = some (normalizeValue v)) ∧
      (∀ g, g ∉ (["title", "author", "in_stock"] : List String) →
        lookupS g out = Option.none) :=
  select_partial_exact_fields [] bookSchema oliverTwist "Oliver Twist"
    ["title", "author", "in_stock"] Option.none ⟨by decide, by decide⟩ (by decide)
    (by decide) (by decide)
